import Mathlib

/-!
# Verification of the review-ingestor core

Shallow embedding of the review-acquisition pipeline:

* `FetchAllReviews` (src/internal/appstore/reviews.go): cursor-paginated fetch
  with bounded exponential backoff, date filtering, early termination and a
  total-count cap.  The HTTP layer is abstracted as an oracle
  `fetch : Nat → Nat → FetchResult` mapping (call index, offset) to the
  observable outcome of one `FetchReviews` call; the Go loop's `time.Sleep`
  calls are recorded in an instrumentation trace instead of sleeping, and the
  `ctx.Done()` check is omitted (no cancellation is ever delivered in the
  scenarios considered here).  The loop, which in Go is `for { ... }`, is
  embedded with explicit fuel: `none` means the fuel ran out before the loop
  returned, so termination statements quantify over all sufficiently large
  fuels.
* `Handle` / `handleReviewsByCountry` (src/internal/service/ingest.go): the
  saga step, with the repository and the Kafka producer abstracted as oracles
  and the persistent store as an explicit list of rows.
* `SaveRawReview` (src/internal/storage/postgres.go): the
  `INSERT ... ON CONFLICT (id) DO NOTHING` upsert, modelled on a list of rows.

Machine integers do not overflow in any modelled quantity (offsets, counts,
durations in nanoseconds), so `Nat` is used throughout; `time.Duration`
values are nanosecond counts.
-/

/-! ## Time values

Go `time.Time` values produced by `time.Parse` with the fixed layouts
`"2006-01-02T15:04:05Z"` and `"2006-01-02"` are UTC wall-clock times; they are
embedded as a six-field record.  `time.Time.Before` compares instants, which
for UTC wall-clock fields is lexicographic comparison. -/

structure GoTime where
  year : Nat
  month : Nat
  day : Nat
  hour : Nat
  minute : Nat
  second : Nat
deriving DecidableEq, Repr

/-- The zero `time.Time` (January 1, year 1, 00:00:00 UTC), which
`time.Parse` returns alongside an error when parsing fails. -/
def zeroGoTime : GoTime := ⟨1, 1, 1, 0, 0, 0⟩

/-- `a.Before b` for UTC wall-clock times: lexicographic on the fields. -/
def dtBefore (a b : GoTime) : Bool :=
  a.year < b.year ∨
    (a.year = b.year ∧ (a.month < b.month ∨
      (a.month = b.month ∧ (a.day < b.day ∨
        (a.day = b.day ∧ (a.hour < b.hour ∨
          (a.hour = b.hour ∧ (a.minute < b.minute ∨
            (a.minute = b.minute ∧ a.second < b.second)))))))))

/-! ## The fixed-layout date parsers

`time.Parse("2006-01-02T15:04:05Z", s)` with this layout demands the exact
shape `YYYY-MM-DDThh:mm:ssZ` (the trailing `Z` is a literal character in this
layout, and the time is UTC), with `\d`-style ASCII digits, and range-checks
month (1..12), day (1..days-in-month), hour (0..23), minute and second
(0..59).  `time.Parse("2006-01-02", s)` demands `YYYY-MM-DD` with the same
range checks and zero time-of-day. -/

def isAsciiDigit (c : Char) : Bool := '0' ≤ c ∧ c ≤ '9'

def digitVal (c : Char) : Nat := c.toNat - '0'.toNat

def d2 (a b : Char) : Option Nat :=
  if isAsciiDigit a ∧ isAsciiDigit b then some (digitVal a * 10 + digitVal b)
  else none

def d4 (a b c d : Char) : Option Nat :=
  if isAsciiDigit a ∧ isAsciiDigit b ∧ isAsciiDigit c ∧ isAsciiDigit d then
    some (digitVal a * 1000 + digitVal b * 100 + digitVal c * 10 + digitVal d)
  else none

def isLeapYear (y : Nat) : Bool := y % 4 = 0 ∧ (y % 100 ≠ 0 ∨ y % 400 = 0)

def daysInMonth (y m : Nat) : Nat :=
  if m = 2 then (if isLeapYear y then 29 else 28)
  else if m = 4 ∨ m = 6 ∨ m = 9 ∨ m = 11 then 30
  else 31

/-- Range checks applied by Go's `time.Parse` before returning a `Time`. -/
def validGoTime (t : GoTime) : Bool :=
  1 ≤ t.month ∧ t.month ≤ 12 ∧ 1 ≤ t.day ∧ t.day ≤ daysInMonth t.year t.month ∧
    t.hour ≤ 23 ∧ t.minute ≤ 59 ∧ t.second ≤ 59

/-- `time.Parse("2006-01-02T15:04:05Z", s)`: `some` on success, `none` on
error. -/
def parseReviewDate (s : String) : Option GoTime :=
  match s.data with
  | [y1, y2, y3, y4, '-', m1, m2, '-', dd1, dd2, 'T',
     h1, h2, ':', mi1, mi2, ':', s1, s2, 'Z'] =>
    match d4 y1 y2 y3 y4, d2 m1 m2, d2 dd1 dd2, d2 h1 h2, d2 mi1 mi2, d2 s1 s2 with
    | some y, some mo, some dd, some hh, some mi, some ss =>
      let t : GoTime := ⟨y, mo, dd, hh, mi, ss⟩
      if validGoTime t then some t else none
    | _, _, _, _, _, _ => none
  | _ => none

/-- `time.Parse("2006-01-02", s)`: `some` on success, `none` on error. -/
def parseDateFrom (s : String) : Option GoTime :=
  match s.data with
  | [y1, y2, y3, y4, '-', m1, m2, '-', dd1, dd2] =>
    match d4 y1 y2 y3 y4, d2 m1 m2, d2 dd1 dd2 with
    | some y, some mo, some dd =>
      let t : GoTime := ⟨y, mo, dd, 0, 0, 0⟩
      if validGoTime t then some t else none
    | _, _, _ => none
  | _ => none

/-! ## Review data model (src/internal/appstore/reviews.go) -/

structure DeveloperResponse where
  Body : String
  Modified : String
deriving DecidableEq, Repr

structure ReviewAttributes where
  Date : String
  Rating : Int
  Review : String
  Title : String
  DeveloperResponse : Option DeveloperResponse
deriving DecidableEq, Repr

structure Review where
  ID : String
  Attributes : ReviewAttributes
deriving DecidableEq, Repr

structure ReviewsResponse where
  Next : String
  Data : List Review
deriving DecidableEq, Repr

structure FetchOptions where
  Limit : Nat
  Offset : Nat
  After : Option GoTime
  MaxLimit : Nat
  Sleep : Option Nat
deriving DecidableEq, Repr

/-- The observable outcome of one `FetchReviews` call: a decoded page, or the
error string the pagination loop inspects. -/
inductive FetchResult where
  | ok (resp : ReviewsResponse)
  | err (msg : String)
deriving DecidableEq, Repr

/-! ## Rate-limit classification and next-link offset parsing -/

def isPrefixOfChars : List Char → List Char → Bool
  | [], _ => true
  | _ :: _, [] => false
  | a :: as, b :: bs => a = b ∧ isPrefixOfChars as bs

def containsChars (needle : List Char) : List Char → Bool
  | [] => isPrefixOfChars needle []
  | c :: rest => isPrefixOfChars needle (c :: rest) ∨ containsChars needle rest

/-- `strings.Contains(strings.ToLower(msg), "429") ||
strings.Contains(strings.ToLower(msg), "too many")` from the loop's
rate-limit test (reviews.go line 140). -/
def isRateLimited (msg : String) : Bool :=
  let low := msg.data.map Char.toLower
  containsChars "429".data low ∨ containsChars "too many".data low

/-- `true` iff the list starts with `offset=` followed by an ASCII digit,
i.e. the regex `offset=(\d+)` matches at position 0. -/
def offsetMatchAt (l : List Char) : Bool :=
  match l with
  | 'o' :: 'f' :: 'f' :: 's' :: 'e' :: 't' :: '=' :: d :: _ => isAsciiDigit d
  | _ => false

def digitsToNat (l : List Char) : Nat :=
  l.foldl (fun acc c => acc * 10 + digitVal c) 0

/-- Leftmost match of `offset=(\d+)`: the greedy digit run after the first
position where the regex matches. -/
def findOffset : List Char → Option Nat
  | [] => none
  | c :: rest =>
    if offsetMatchAt (c :: rest) then
      some (digitsToNat ((c :: rest).drop 7 |>.takeWhile isAsciiDigit))
    else findOffset rest

/-- `parseOffsetFromURL` (reviews.go lines 237-244): leftmost
`offset=(\d+)` submatch converted with `strconv.Atoi`; error (`none`) when
the regex does not match.  (Atoi's int64-overflow error is not modelled:
no scenario here involves a 19-digit offset.) -/
def parseOffsetFromURL (urlStr : String) : Option Nat :=
  findOffset urlStr.data

/-! ## The pagination/backoff loop (`FetchAllReviews`, reviews.go 106-198) -/

def oneSecond : Nat := 1000000000

/-- `maxBackoffDelay = 60 * time.Second` (reviews.go line 119). -/
def maxBackoffDelay : Nat := 60 * oneSecond

/-- `maxRetries = 5` (reviews.go line 120). -/
def maxRetries : Nat := 5

/-- Mutable state of the Go loop, plus two write-only instrumentation
traces: the offset of every `FetchReviews` call made so far (`attempts`) and
every backoff sleep performed so far (`backoffSleeps`, nanoseconds). -/
structure FetchState where
  allReviews : List Review
  fetchedCount : Nat
  currentOffset : Nat
  backoffDelay : Nat
  currentRetries : Nat
  attempts : List Nat
  backoffSleeps : List Nat
deriving DecidableEq, Repr

def initState (opts : FetchOptions) : FetchState :=
  ⟨[], 0, opts.Offset, oneSecond, 0, [], []⟩

/-- Result of `FetchAllReviews`: the returned slice, the returned error
(`none` = nil), and the instrumentation traces. -/
structure FetchDone where
  reviews : List Review
  error : Option String
  attempts : List Nat
  backoffSleeps : List Nat
deriving DecidableEq, Repr

/-- One review qualifies when its date parses and, if `After` is set, the
parsed date is not strictly before it (reviews.go lines 159-167: both
`continue` branches negated). -/
def qualifiesB (after : Option GoTime) (r : Review) : Bool :=
  match parseReviewDate r.Attributes.Date with
  | none => false
  | some d =>
    match after with
    | some a => ¬ dtBefore d a
    | none => true

/-- Outcome of the inner `for _, review := range reviewsResp.Data` loop
(reviews.go lines 159-176): either the `MaxLimit` return fired mid-page
(`limitHit`) or the loop ran through the whole page (`through`). -/
inductive PageStep where
  | limitHit (acc : List Review) (cnt : Nat)
  | through (acc : List Review) (cnt : Nat) (newAdded : Bool)
deriving DecidableEq, Repr

def processReviews (opts : FetchOptions) :
    List Review → List Review → Nat → Bool → PageStep
  | [], acc, cnt, added => .through acc cnt added
  | r :: rs, acc, cnt, added =>
    if qualifiesB opts.After r then
      let acc' := acc ++ [r]
      let cnt' := cnt + 1
      if 0 < opts.MaxLimit ∧ opts.MaxLimit ≤ cnt' then .limitHit acc' cnt'
      else processReviews opts rs acc' cnt' true
    else processReviews opts rs acc cnt added

/-- The `for { ... }` loop of `FetchAllReviews`, with fuel.  `none` means the
fuel was exhausted before the loop returned. -/
def fetchLoop (fetch : Nat → Nat → FetchResult) (opts : FetchOptions) :
    Nat → FetchState → Option FetchDone
  | 0, _ => none
  | fuel + 1, st =>
    let attempts' := st.attempts ++ [st.currentOffset]
    match fetch st.attempts.length st.currentOffset with
    | .err msg =>
      if isRateLimited msg then
        if maxRetries ≤ st.currentRetries then
          some ⟨st.allReviews, some ("maximum retry attempts exceeded: " ++ msg),
            attempts', st.backoffSleeps⟩
        else
          fetchLoop fetch opts fuel
            { st with
              backoffDelay := Nat.min (st.backoffDelay * 2) maxBackoffDelay,
              currentRetries := st.currentRetries + 1,
              attempts := attempts',
              backoffSleeps := st.backoffSleeps ++ [st.backoffDelay] }
      else some ⟨st.allReviews, some msg, attempts', st.backoffSleeps⟩
    | .ok resp =>
      match processReviews opts resp.Data st.allReviews st.fetchedCount false with
      | .limitHit acc _ => some ⟨acc, none, attempts', st.backoffSleeps⟩
      | .through acc cnt added =>
        if resp.Next = "" then some ⟨acc, none, attempts', st.backoffSleeps⟩
        else if opts.After.isSome ∧ added = false then
          some ⟨acc, none, attempts', st.backoffSleeps⟩
        else
          match parseOffsetFromURL resp.Next with
          | none => some ⟨acc, none, attempts', st.backoffSleeps⟩
          | some nextOffset =>
            fetchLoop fetch opts fuel
              { st with
                allReviews := acc,
                fetchedCount := cnt,
                currentOffset := nextOffset,
                backoffDelay := oneSecond,
                currentRetries := 0,
                attempts := attempts' }

/-- `FetchAllReviews` (reviews.go 106-198): nil options default to
`{Limit: 20, Offset: 0}`, then the pagination loop runs from the initial
state. -/
def FetchAllReviews (fetch : Nat → Nat → FetchResult) (opts : Option FetchOptions)
    (fuel : Nat) : Option FetchDone :=
  let o := opts.getD ⟨20, 0, none, 0, none⟩
  fetchLoop fetch o fuel (initState o)

/-- A mocked upstream serving a fixed sequence of pages in call order (the
"sequence of mocked pages" of the spec's testable properties): call `i`
returns page `i`; calls past the end fail with a non-rate-limit error. -/
def pagesFetch (pages : List ReviewsResponse) : Nat → Nat → FetchResult :=
  fun i _ =>
    match pages[i]? with
    | some p => .ok p
    | none => .err "no more pages"

/-! ## Storage (src/internal/storage/postgres.go) -/

/-- One row of the `raw_reviews` table. -/
structure RawReviewRow where
  id : String
  app_id : String
  country : String
  rating : Int
  title : String
  content : String
  reviewed_at : GoTime
  response_date : Option GoTime
  response_content : Option String
deriving DecidableEq, Repr

/-- `SaveRawReview` (postgres.go 74-81): `INSERT ... ON CONFLICT (id) DO
NOTHING`.  The store is the list of rows in insertion order; a conflicting id
leaves the table untouched and the statement reports no error (the second
component; driver/connection failures are modelled separately by the service
layer's save-failure oracle). -/
def SaveRawReview (store : List RawReviewRow) (row : RawReviewRow) :
    List RawReviewRow × Option String :=
  (if store.any (fun r => r.id == row.id) then store else store ++ [row], none)

/-! ## The saga step (src/internal/service/ingest.go) -/

/-- `service.Limit` (ingest.go line 16). -/
def serviceLimit : Nat := 500

/-- The fields of `events.ExtractRequest` used by the saga step.  The type
itself lives in the external `quiby-ai/common` package; modelled from the
spec: `{appID, appName, countries, dateFrom}` (§3, §6). -/
structure ExtractRequest where
  AppID : String
  AppName : String
  Countries : List String
  DateFrom : String
deriving DecidableEq, Repr

/-- Modelled from the spec: `evt.Validate()` comes from the external
`quiby-ai/common` package; per §4.3 it requires a non-empty appID and at
least one country. -/
def validateRequest (evt : ExtractRequest) : Bool :=
  evt.AppID ≠ "" ∧ ¬ evt.Countries.isEmpty

/-- The fetch options built by `handleReviewsByCountry` (ingest.go 104-110):
the parse error of `dateFrom` is discarded, so `After` is always a non-nil
pointer — to the zero time when `dateFrom` does not parse. -/
def countryOpts (evt : ExtractRequest) (maxLimit : Nat) : FetchOptions :=
  ⟨20, 0, some ((parseDateFrom evt.DateFrom).getD zeroGoTime), maxLimit, none⟩

/-- The row built for one review (ingest.go 124-151): the review date must
parse (else the review is skipped), the developer-response date is kept only
when it parses, and the response body is kept whenever a response exists. -/
def rowOfReview (appID country : String) (review : Review) (reviewDate : GoTime) :
    RawReviewRow :=
  { id := review.ID
    app_id := appID
    country := country
    rating := review.Attributes.Rating
    title := review.Attributes.Title
    content := review.Attributes.Review
    reviewed_at := reviewDate
    response_date :=
      match review.Attributes.DeveloperResponse with
      | none => none
      | some dr => parseReviewDate dr.Modified
    response_content :=
      match review.Attributes.DeveloperResponse with
      | none => none
      | some dr => some dr.Body }

/-- The per-review save pass of `handleReviewsByCountry` (ingest.go
120-157): reviews whose date does not parse are skipped; a failing
`SaveRawReview` call (`saveFails` oracle, keyed by review id) is logged and
skipped, leaving the store as-is; the loop always continues. -/
def saveReviews (saveFails : String → Bool) (appID country : String)
    (reviews : List Review) (store : List RawReviewRow) : List RawReviewRow :=
  reviews.foldl
    (fun st review =>
      match parseReviewDate review.Attributes.Date with
      | none => st
      | some d =>
        if saveFails review.ID then st
        else (SaveRawReview st (rowOfReview appID country review d)).1)
    store

/-- `handleReviewsByCountry` (ingest.go 101-161).  Returns
`(count, error, store)`, where `count` is the length of the fetched slice —
not the number of successful saves.  `none` propagates fuel exhaustion of the
pagination loop. -/
def handleReviewsByCountry (fetch : Nat → Nat → FetchResult)
    (saveFails : String → Bool) (evt : ExtractRequest) (country : String)
    (maxLimit : Nat) (fuel : Nat) (store : List RawReviewRow) :
    Option (Nat × Option String × List RawReviewRow) :=
  let opts := countryOpts evt maxLimit
  match fetchLoop fetch opts fuel (initState opts) with
  | none => none
  | some res =>
    match res.error with
    | some e =>
      some (0, some ("failed to fetch reviews for country " ++ country ++ ": " ++ e),
        store)
    | none =>
      some (res.reviews.length, none,
        saveReviews saveFails evt.AppID country res.reviews store)

/-- The `for _, country := range evt.Countries` loop of `Handle` (ingest.go
73-83): sequential, aborting on the first per-country error.  Returns
`(error, total, store, attempted)` where `attempted` lists the countries for
which a fetch was started, in order. -/
def processCountries (fetch : String → Nat → Nat → FetchResult)
    (saveFails : String → String → Bool) (evt : ExtractRequest) (fuel : Nat) :
    List String → List RawReviewRow →
    Option (Option String × Nat × List RawReviewRow × List String)
  | [], store => some (none, 0, store, [])
  | c :: cs, store =>
    match handleReviewsByCountry (fetch c) (saveFails c) evt c serviceLimit fuel store with
    | none => none
    | some (_, some e, st') =>
      some (some ("failed to process country " ++ c ++ ": " ++ e), 0, st', [c])
    | some (cnt, none, st') =>
      match processCountries fetch saveFails evt fuel cs st' with
      | none => none
      | some (errOpt, tot, st'', cs') => some (errOpt, cnt + tot, st'', c :: cs')

/-- External effects and outcome of one `Handle` call: the returned error,
the final store, the completion events actually published (request paired
with its total count), and the countries attempted. -/
structure HandleResult where
  error : Option String
  store : List RawReviewRow
  published : List (ExtractRequest × Nat)
  attempted : List String
deriving DecidableEq, Repr

/-- `Handle` (ingest.go 49-99).  Token extraction (external HTML scraping)
and event publication are oracles: `tokenResult` is the outcome of
`ExtractToken` for the first country, `publishFails` whether `PublishEvent`
errors.  A completion event enters `published` only when publication
succeeds. -/
def Handle (fetch : String → Nat → Nat → FetchResult)
    (saveFails : String → String → Bool) (tokenResult : Except String String)
    (publishFails : Bool) (evt : ExtractRequest) (fuel : Nat)
    (store : List RawReviewRow) : Option HandleResult :=
  if ¬ validateRequest evt then
    some ⟨some "invalid incoming event", store, [], []⟩
  else
    match tokenResult with
    | .error e =>
      some ⟨some ("failed to extract token for country " ++
        evt.Countries.headD "" ++ ": " ++ e), store, [], []⟩
    | .ok _ =>
      match processCountries fetch saveFails evt fuel evt.Countries store with
      | none => none
      | some (some e, _, st', cs') => some ⟨some e, st', [], cs'⟩
      | some (none, tot, st', cs') =>
        if publishFails then
          some ⟨some "failed to publish prepare reviews event", st', [], cs'⟩
        else some ⟨none, st', [(evt, tot)], cs'⟩

/-! ## Basic facts about the embedded primitives -/

/-- The qualifying reviews of one page: parseable date, and not strictly
before `after` when it is set (the reviews the inner loop appends). -/
def qualFilter (after : Option GoTime) (p : ReviewsResponse) : List Review :=
  p.Data.filter (qualifiesB after)

/-- The concatenation, in page order, of the qualifying reviews of a page
sequence. -/
def allQualifying (after : Option GoTime) (pages : List ReviewsResponse) :
    List Review :=
  pages.flatMap (qualFilter after)

theorem parseOffsetFromURL_empty : parseOffsetFromURL "" = none := rfl

theorem next_ne_empty_of_parse {s : String} {o : Nat}
    (h : parseOffsetFromURL s = some o) : s ≠ "" := by
  intro he
  rw [he, parseOffsetFromURL_empty] at h
  exact Option.noConfusion h

/-- `processReviews` runs through the whole page when the cap is off or out
of reach: it appends exactly the qualifying reviews, counts them, and ors
the page's qualifying flag into `newAdded`. -/
theorem processReviews_through (opts : FetchOptions) (l : List Review) :
    ∀ (acc : List Review) (cnt : Nat) (added : Bool),
      (opts.MaxLimit = 0 ∨ cnt + (l.filter (qualifiesB opts.After)).length < opts.MaxLimit) →
      processReviews opts l acc cnt added =
        .through (acc ++ l.filter (qualifiesB opts.After))
          (cnt + (l.filter (qualifiesB opts.After)).length)
          (added || l.any (qualifiesB opts.After)) := by
  induction l with
  | nil => intro acc cnt added _; simp [processReviews]
  | cons r rs ih =>
    intro acc cnt added hM
    by_cases hq : qualifiesB opts.After r = true
    · have hfil : (r :: rs).filter (qualifiesB opts.After) =
        r :: rs.filter (qualifiesB opts.After) := by
        simp [List.filter_cons, hq]
      rw [hfil] at hM ⊢
      have hnotHit : ¬ (0 < opts.MaxLimit ∧ opts.MaxLimit ≤ cnt + 1) := by
        rcases hM with h0 | hlt
        · omega
        · simp only [List.length_cons] at hlt; omega
      simp only [processReviews, hq, if_pos rfl, if_true]
      rw [if_neg hnotHit]
      rw [ih (acc ++ [r]) (cnt + 1) true ?side]
      · have hc : cnt + 1 + (rs.filter (qualifiesB opts.After)).length =
          cnt + ((rs.filter (qualifiesB opts.After)).length + 1) := by omega
        simp only [List.any_cons, hq, List.length_cons, hc, Bool.true_or,
          Bool.or_true, List.append_assoc, List.singleton_append]
      case side =>
        rcases hM with h0 | hlt
        · exact Or.inl h0
        · right; simp only [List.length_cons] at hlt; omega
    · have hq' : qualifiesB opts.After r = false := by
        simpa using hq
      have hfil : (r :: rs).filter (qualifiesB opts.After) =
        rs.filter (qualifiesB opts.After) := by
        simp [List.filter_cons, hq']
      rw [hfil] at hM ⊢
      simp only [processReviews, hq', Bool.false_eq_true, if_neg, ite_false]
      rw [ih acc cnt added hM]
      simp [List.any_cons, hq']

/-- `processReviews` fires the cap return as soon as the running count
reaches `MaxLimit`, keeping exactly the first `MaxLimit - cnt` qualifying
reviews of the page. -/
theorem processReviews_hit (opts : FetchOptions) (l : List Review) :
    ∀ (acc : List Review) (cnt : Nat) (added : Bool),
      0 < opts.MaxLimit → cnt < opts.MaxLimit →
      opts.MaxLimit ≤ cnt + (l.filter (qualifiesB opts.After)).length →
      processReviews opts l acc cnt added =
        .limitHit (acc ++ (l.filter (qualifiesB opts.After)).take (opts.MaxLimit - cnt))
          opts.MaxLimit := by
  induction l with
  | nil =>
    intro acc cnt added hpos hlt hle
    simp only [List.filter_nil, List.length_nil, Nat.add_zero] at hle
    omega
  | cons r rs ih =>
    intro acc cnt added hpos hlt hle
    by_cases hq : qualifiesB opts.After r = true
    · have hfil : (r :: rs).filter (qualifiesB opts.After) =
        r :: rs.filter (qualifiesB opts.After) := by
        simp [List.filter_cons, hq]
      rw [hfil] at hle ⊢
      by_cases hhit : opts.MaxLimit ≤ cnt + 1
      · have hM : opts.MaxLimit = cnt + 1 := by omega
        simp only [processReviews, hq, if_pos rfl, if_true]
        rw [if_pos ⟨hpos, hhit⟩]
        have htake : opts.MaxLimit - cnt = 1 := by omega
        rw [htake, hM, List.take_succ_cons, List.take_zero]
      · simp only [processReviews, hq, if_pos rfl, if_true]
        rw [if_neg (by omega : ¬ (0 < opts.MaxLimit ∧ opts.MaxLimit ≤ cnt + 1))]
        rw [ih (acc ++ [r]) (cnt + 1) true hpos (by omega)
          (by simp only [List.length_cons] at hle; omega)]
        have htake : opts.MaxLimit - cnt = (opts.MaxLimit - (cnt + 1)) + 1 := by omega
        rw [htake, List.take_succ_cons]
        simp [List.append_assoc]
    · have hq' : qualifiesB opts.After r = false := by simpa using hq
      have hfil : (r :: rs).filter (qualifiesB opts.After) =
        rs.filter (qualifiesB opts.After) := by
        simp [List.filter_cons, hq']
      rw [hfil] at hle ⊢
      simp only [processReviews, hq', Bool.false_eq_true, ite_false]
      exact ih acc cnt added hpos hlt hle

/-! ## One-iteration lemmas for the pagination loop -/

theorem fetchLoop_err_stop {fetch : Nat → Nat → FetchResult} {opts : FetchOptions}
    {st : FetchState} {msg : String} (f : Nat)
    (hf : fetch st.attempts.length st.currentOffset = .err msg)
    (hrl : isRateLimited msg = false) :
    fetchLoop fetch opts (f + 1) st =
      some ⟨st.allReviews, some msg, st.attempts ++ [st.currentOffset],
        st.backoffSleeps⟩ := by
  simp [fetchLoop, hf, hrl]

theorem fetchLoop_err_abort {fetch : Nat → Nat → FetchResult} {opts : FetchOptions}
    {st : FetchState} {msg : String} (f : Nat)
    (hf : fetch st.attempts.length st.currentOffset = .err msg)
    (hrl : isRateLimited msg = true) (hret : maxRetries ≤ st.currentRetries) :
    fetchLoop fetch opts (f + 1) st =
      some ⟨st.allReviews, some ("maximum retry attempts exceeded: " ++ msg),
        st.attempts ++ [st.currentOffset], st.backoffSleeps⟩ := by
  simp [fetchLoop, hf, hrl, hret]

/-- The state update of one rate-limited retry (reviews.go 146-150): record
the sleep, double the delay up to the cap, bump the retry counter.  (The Go
cap uses `math.Min` on exact `float64` values of at most `120e9`, which is
exact `Nat.min`.) -/
def rlAdvance (st : FetchState) : FetchState :=
  { st with
    backoffDelay := Nat.min (st.backoffDelay * 2) maxBackoffDelay,
    currentRetries := st.currentRetries + 1,
    attempts := st.attempts ++ [st.currentOffset],
    backoffSleeps := st.backoffSleeps ++ [st.backoffDelay] }

theorem fetchLoop_err_retry {fetch : Nat → Nat → FetchResult} {opts : FetchOptions}
    {st : FetchState} {msg : String} (f : Nat)
    (hf : fetch st.attempts.length st.currentOffset = .err msg)
    (hrl : isRateLimited msg = true) (hret : st.currentRetries < maxRetries) :
    fetchLoop fetch opts (f + 1) st = fetchLoop fetch opts f (rlAdvance st) := by
  simp [fetchLoop, hf, hrl, Nat.not_le.mpr hret, rlAdvance]

theorem fetchLoop_ok_limit {fetch : Nat → Nat → FetchResult} {opts : FetchOptions}
    {st : FetchState} {resp : ReviewsResponse} {acc : List Review} {n : Nat} (f : Nat)
    (hf : fetch st.attempts.length st.currentOffset = .ok resp)
    (hp : processReviews opts resp.Data st.allReviews st.fetchedCount false =
      .limitHit acc n) :
    fetchLoop fetch opts (f + 1) st =
      some ⟨acc, none, st.attempts ++ [st.currentOffset], st.backoffSleeps⟩ := by
  simp [fetchLoop, hf, hp]

theorem fetchLoop_ok_noNext {fetch : Nat → Nat → FetchResult} {opts : FetchOptions}
    {st : FetchState} {resp : ReviewsResponse} {acc : List Review} {cnt : Nat}
    {added : Bool} (f : Nat)
    (hf : fetch st.attempts.length st.currentOffset = .ok resp)
    (hp : processReviews opts resp.Data st.allReviews st.fetchedCount false =
      .through acc cnt added)
    (hnext : resp.Next = "") :
    fetchLoop fetch opts (f + 1) st =
      some ⟨acc, none, st.attempts ++ [st.currentOffset], st.backoffSleeps⟩ := by
  simp [fetchLoop, hf, hp, hnext]

theorem fetchLoop_ok_noAdd {fetch : Nat → Nat → FetchResult} {opts : FetchOptions}
    {st : FetchState} {resp : ReviewsResponse} {acc : List Review} {cnt : Nat} (f : Nat)
    (hf : fetch st.attempts.length st.currentOffset = .ok resp)
    (hp : processReviews opts resp.Data st.allReviews st.fetchedCount false =
      .through acc cnt false)
    (hnext : resp.Next ≠ "") (hafter : opts.After.isSome = true) :
    fetchLoop fetch opts (f + 1) st =
      some ⟨acc, none, st.attempts ++ [st.currentOffset], st.backoffSleeps⟩ := by
  simp [fetchLoop, hf, hp, hnext, hafter]

theorem fetchLoop_ok_badNext {fetch : Nat → Nat → FetchResult} {opts : FetchOptions}
    {st : FetchState} {resp : ReviewsResponse} {acc : List Review} {cnt : Nat}
    {added : Bool} (f : Nat)
    (hf : fetch st.attempts.length st.currentOffset = .ok resp)
    (hp : processReviews opts resp.Data st.allReviews st.fetchedCount false =
      .through acc cnt added)
    (hnext : resp.Next ≠ "") (hpass : ¬ (opts.After.isSome = true ∧ added = false))
    (hparse : parseOffsetFromURL resp.Next = none) :
    fetchLoop fetch opts (f + 1) st =
      some ⟨acc, none, st.attempts ++ [st.currentOffset], st.backoffSleeps⟩ := by
  simp [fetchLoop, hf, hp, hnext, hpass, hparse]

theorem fetchLoop_ok_cont {fetch : Nat → Nat → FetchResult} {opts : FetchOptions}
    {st : FetchState} {resp : ReviewsResponse} {acc : List Review} {cnt : Nat}
    {added : Bool} {o : Nat} (f : Nat)
    (hf : fetch st.attempts.length st.currentOffset = .ok resp)
    (hp : processReviews opts resp.Data st.allReviews st.fetchedCount false =
      .through acc cnt added)
    (hnext : resp.Next ≠ "") (hpass : ¬ (opts.After.isSome = true ∧ added = false))
    (hparse : parseOffsetFromURL resp.Next = some o) :
    fetchLoop fetch opts (f + 1) st =
      fetchLoop fetch opts f
        ⟨acc, cnt, o, oneSecond, 0, st.attempts ++ [st.currentOffset],
          st.backoffSleeps⟩ := by
  simp [fetchLoop, hf, hp, hnext, hpass, hparse]

/-! ## Rate-limit incidents -/

/-- The fetch call with index `i` at offset `off` fails with a rate-limit
signal (an error whose lowered text contains "429" or "too many"). -/
def isRLerrAt (fetch : Nat → Nat → FetchResult) (i off : Nat) : Prop :=
  ∃ m, fetch i off = .err m ∧ isRateLimited m = true

/-- `k` retry updates in a row. -/
def rlIter : Nat → FetchState → FetchState
  | 0, st => st
  | k + 1, st => rlAdvance (rlIter k st)

theorem rlIter_basic (k : Nat) (st : FetchState) :
    (rlIter k st).currentOffset = st.currentOffset ∧
    (rlIter k st).attempts.length = st.attempts.length + k ∧
    (rlIter k st).currentRetries = st.currentRetries + k ∧
    (rlIter k st).allReviews = st.allReviews := by
  induction k with
  | zero => simp [rlIter]
  | succ k ih =>
    obtain ⟨h1, h2, h3, h4⟩ := ih
    simp only [rlIter, rlAdvance]
    refine ⟨h1, ?_, ?_, h4⟩
    · simp [h2]; omega
    · omega

theorem rlIter_fields (k : Nat) (st : FetchState) (hb : st.backoffDelay = oneSecond)
    (hr : st.currentRetries = 0) (hk : k ≤ 5) :
    rlIter k st =
      ⟨st.allReviews, st.fetchedCount, st.currentOffset, 2 ^ k * oneSecond, k,
        st.attempts ++ List.replicate k st.currentOffset,
        st.backoffSleeps ++ (List.range k).map (fun j => 2 ^ j * oneSecond)⟩ := by
  induction k with
  | zero =>
    cases st
    simp only [rlIter, pow_zero, one_mul, List.replicate_zero, List.append_nil,
      List.range_zero, List.map_nil] at *
    simp [hb, hr]
  | succ k ih =>
    have hk' : k ≤ 5 := by omega
    rw [rlIter, ih hk']
    simp only [rlAdvance]
    have hmin : Nat.min (2 ^ k * oneSecond * 2) maxBackoffDelay =
        2 ^ (k + 1) * oneSecond := by
      have h1 : 2 ^ k * oneSecond * 2 = 2 ^ (k + 1) * oneSecond := by ring
      have h2 : 2 ^ (k + 1) ≤ 60 := by
        calc 2 ^ (k + 1) ≤ 2 ^ 5 := Nat.pow_le_pow_right (by omega) (by omega)
        _ ≤ 60 := by norm_num
      rw [h1]
      exact Nat.min_eq_left (by
        unfold maxBackoffDelay
        exact Nat.mul_le_mul_right oneSecond h2)
    rw [hmin]
    simp [List.replicate_succ', List.range_succ, List.append_assoc]

theorem fetchLoop_rl_chain {fetch : Nat → Nat → FetchResult} {opts : FetchOptions} :
    ∀ (k : Nat) (st : FetchState) (f : Nat),
      (∀ i, st.attempts.length ≤ i → i < st.attempts.length + k →
        isRLerrAt fetch i st.currentOffset) →
      st.currentRetries + k ≤ maxRetries →
      fetchLoop fetch opts (k + f) st = fetchLoop fetch opts f (rlIter k st) := by
  intro k
  induction k with
  | zero => intro st f _ _; simp [rlIter]
  | succ k ih =>
    intro st f hrl hret
    obtain ⟨hoff, hlen, hretr, _⟩ := rlIter_basic k st
    have h1 : fetchLoop fetch opts (k + (f + 1)) st =
        fetchLoop fetch opts (f + 1) (rlIter k st) :=
      ih st (f + 1) (fun i h1 h2 => hrl i h1 (by omega)) (by omega)
    obtain ⟨m, hm, hmrl⟩ := hrl (st.attempts.length + k) (by omega) (by omega)
    have hstep : fetchLoop fetch opts (f + 1) (rlIter k st) =
        fetchLoop fetch opts f (rlAdvance (rlIter k st)) := by
      refine fetchLoop_err_retry f ?_ hmrl ?_
      · rw [hlen, hoff]; exact hm
      · rw [hretr]; unfold maxRetries at hret ⊢; omega
    have harith : k + 1 + f = k + (f + 1) := by omega
    rw [harith, h1, hstep, rlIter]

theorem fetchLoop_rl_exhaust (fetch : Nat → Nat → FetchResult) (opts : FetchOptions)
    (st : FetchState) (f : Nat) (hb : st.backoffDelay = oneSecond)
    (hr : st.currentRetries = 0)
    (hrl : ∀ i, st.attempts.length ≤ i → isRLerrAt fetch i st.currentOffset) :
    ∃ m, fetch (st.attempts.length + 5) st.currentOffset = .err m ∧
      isRateLimited m = true ∧
      fetchLoop fetch opts (6 + f) st =
        some ⟨st.allReviews, some ("maximum retry attempts exceeded: " ++ m),
          st.attempts ++ List.replicate 6 st.currentOffset,
          st.backoffSleeps ++
            [oneSecond, 2 * oneSecond, 4 * oneSecond, 8 * oneSecond,
              16 * oneSecond]⟩ := by
  obtain ⟨m, hm, hmrl⟩ := hrl (st.attempts.length + 5) (by omega)
  refine ⟨m, hm, hmrl, ?_⟩
  have hchain : fetchLoop fetch opts (5 + (f + 1)) st =
      fetchLoop fetch opts (f + 1) (rlIter 5 st) :=
    fetchLoop_rl_chain 5 st (f + 1) (fun i h1 _ => hrl i h1) (by simp [maxRetries, hr])
  have hfields := rlIter_fields 5 st hb hr (by omega)
  have hmap : (List.range 5).map (fun j => 2 ^ j * oneSecond) =
      [oneSecond, 2 * oneSecond, 4 * oneSecond, 8 * oneSecond, 16 * oneSecond] := by
    decide
  have harith : 6 + f = 5 + (f + 1) := by omega
  rw [harith, hchain, hfields, hmap]
  rw [fetchLoop_err_abort f (by simpa using hm) hmrl (by simp [maxRetries])]
  have hrep : List.replicate 6 st.currentOffset =
      List.replicate 5 st.currentOffset ++ [st.currentOffset] := by
    rw [show (6 : Nat) = 5 + 1 from rfl, List.replicate_succ']
  rw [hrep]
  simp [List.append_assoc]

/-! ## Walking a chain of well-linked pages -/

theorem pagesFetch_ok {pages : List ReviewsResponse} {n : Nat} {p : ReviewsResponse}
    {rest : List ReviewsResponse} (h : pages.drop n = p :: rest) (off : Nat) :
    pagesFetch pages n off = .ok p := by
  have hget : pages[n]? = some p := by
    rw [← List.head?_drop, h]; rfl
  simp [pagesFetch, hget]

theorem drop_succ_of_drop_cons {α : Type} {l : List α} {n : Nat} {p : α}
    {rest : List α} (h : l.drop n = p :: rest) : l.drop (n + 1) = rest := by
  rw [← List.tail_drop, h]
  rfl

/-- A page the loop can follow: its next link is non-empty and carries a
parseable offset, and — when a date filter is active — it contributes at
least one qualifying review, so neither stop branch fires. -/
def chainOK (after : Option GoTime) (p : ReviewsResponse) : Prop :=
  (∃ o, parseOffsetFromURL p.Next = some o) ∧
    (after.isSome = true → p.Data.any (qualifiesB after) = true)

theorem fetchLoop_walk (pages : List ReviewsResponse) (opts : FetchOptions) :
    ∀ (pre rest : List ReviewsResponse) (st : FetchState) (f : Nat),
      pages.drop st.attempts.length = pre ++ rest →
      st.backoffDelay = oneSecond → st.currentRetries = 0 →
      (opts.MaxLimit = 0 ∨
        st.fetchedCount + (allQualifying opts.After pre).length < opts.MaxLimit) →
      (∀ p ∈ pre, chainOK opts.After p) →
      ∃ (o : Nat) (offs : List Nat), offs.length = pre.length ∧
        fetchLoop (pagesFetch pages) opts (pre.length + f) st =
          fetchLoop (pagesFetch pages) opts f
            ⟨st.allReviews ++ allQualifying opts.After pre,
              st.fetchedCount + (allQualifying opts.After pre).length, o, oneSecond, 0,
              st.attempts ++ offs, st.backoffSleeps⟩ := by
  intro pre
  induction pre with
  | nil =>
    intro rest st f _ hb hr _ _
    refine ⟨st.currentOffset, [], rfl, ?_⟩
    cases st
    simp only [allQualifying, List.flatMap_nil, List.append_nil, Nat.add_zero,
      List.length_nil, Nat.zero_add] at *
    simp [hb, hr]
  | cons p pre' ih =>
    intro rest st f hdrop hb hr hlim hchain
    obtain ⟨⟨o1, hparse⟩, hany⟩ := hchain p (by simp)
    have hget := pagesFetch_ok hdrop st.currentOffset
    have hsplit : (allQualifying opts.After (p :: pre')).length =
        (qualFilter opts.After p).length + (allQualifying opts.After pre').length := by
      simp [allQualifying, List.flatMap_cons]
    have hthrough := processReviews_through opts p.Data st.allReviews st.fetchedCount
      false (by
        rcases hlim with h0 | hlt
        · exact Or.inl h0
        · right
          have : (p.Data.filter (qualifiesB opts.After)).length =
              (qualFilter opts.After p).length := rfl
          omega)
    have hpass : ¬ (opts.After.isSome = true ∧
        (false || p.Data.any (qualifiesB opts.After)) = false) := by
      rintro ⟨hs, hfalse⟩
      rw [Bool.false_or] at hfalse
      rw [hany hs] at hfalse
      exact Bool.noConfusion hfalse
    have hnext : p.Next ≠ "" := next_ne_empty_of_parse hparse
    have hstep := fetchLoop_ok_cont (pre'.length + f) hget hthrough hnext hpass hparse
    have hfuel : (p :: pre').length + f = (pre'.length + f) + 1 := by
      simp [List.length_cons]; omega
    set st1 : FetchState :=
      ⟨st.allReviews ++ p.Data.filter (qualifiesB opts.After),
        st.fetchedCount + (p.Data.filter (qualifiesB opts.After)).length, o1,
        oneSecond, 0, st.attempts ++ [st.currentOffset], st.backoffSleeps⟩ with hst1
    have hdrop1 : pages.drop st1.attempts.length = pre' ++ rest := by
      rw [hst1]
      simp only [List.length_append, List.length_cons, List.length_nil]
      exact drop_succ_of_drop_cons hdrop
    obtain ⟨o, offs, hlen, heq⟩ := ih rest st1 f hdrop1 rfl rfl
      (by
        rcases hlim with h0 | hlt
        · exact Or.inl h0
        · right
          rw [hst1]
          simp only []
          have : (p.Data.filter (qualifiesB opts.After)).length =
              (qualFilter opts.After p).length := rfl
          omega)
      (fun q hq => hchain q (by simp [hq]))
    refine ⟨o, st.currentOffset :: offs, by simp [hlen], ?_⟩
    rw [hfuel, hstep, heq]
    congr 1
    rw [hst1]
    simp [allQualifying, qualFilter, List.flatMap_cons, List.append_assoc,
      Nat.add_assoc]

/-! ## Termination and concatenation on a call-ordered page sequence -/

theorem fetchLoop_pages_done (pages : List ReviewsResponse) (opts : FetchOptions)
    (hM : opts.MaxLimit = 0) :
    ∀ (rem : List ReviewsResponse) (st : FetchState),
      pages.drop st.attempts.length = rem →
      (∃ plast, rem.getLast? = some plast ∧ plast.Next = "") →
      ∃ (k : Nat) (res : FetchDone), 1 ≤ k ∧ k ≤ rem.length ∧
        res.error = none ∧
        res.attempts.length = st.attempts.length + k ∧
        res.backoffSleeps = st.backoffSleeps ∧
        res.reviews = st.allReviews ++ allQualifying opts.After (rem.take k) ∧
        ∀ f, fetchLoop (pagesFetch pages) opts (rem.length + f) st = some res := by
  intro rem
  induction rem with
  | nil =>
    intro st _ hlast
    obtain ⟨plast, hl, _⟩ := hlast
    simp at hl
  | cons p rest ih =>
    intro st hdrop hlast
    have hget := pagesFetch_ok hdrop st.currentOffset
    have hthrough := processReviews_through opts p.Data st.allReviews st.fetchedCount
      false (Or.inl hM)
    by_cases hnext : p.Next = ""
    · refine ⟨1, ⟨st.allReviews ++ p.Data.filter (qualifiesB opts.After), none,
        st.attempts ++ [st.currentOffset], st.backoffSleeps⟩, le_refl 1, by simp, rfl,
        by simp, rfl, by simp [allQualifying, qualFilter], ?_⟩
      intro f
      have hfuel : (p :: rest).length + f = (rest.length + f) + 1 := by
        simp [List.length_cons]; omega
      rw [hfuel]
      exact fetchLoop_ok_noNext (rest.length + f) hget hthrough hnext
    · have hrest : rest ≠ [] := by
        intro hr
        rw [hr] at hlast
        obtain ⟨plast, hl, hln⟩ := hlast
        simp at hl
        rw [← hl] at hln
        exact hnext hln
      by_cases hstop : opts.After.isSome = true ∧
          (false || p.Data.any (qualifiesB opts.After)) = false
      · refine ⟨1, ⟨st.allReviews ++ p.Data.filter (qualifiesB opts.After), none,
          st.attempts ++ [st.currentOffset], st.backoffSleeps⟩, le_refl 1, by simp, rfl,
          by simp, rfl, by simp [allQualifying, qualFilter], ?_⟩
        intro f
        have hfuel : (p :: rest).length + f = (rest.length + f) + 1 := by
          simp [List.length_cons]; omega
        rw [hfuel]
        have hadded : processReviews opts p.Data st.allReviews st.fetchedCount false =
            .through (st.allReviews ++ p.Data.filter (qualifiesB opts.After))
              (st.fetchedCount + (p.Data.filter (qualifiesB opts.After)).length) false := by
          rw [hthrough, hstop.2]
        exact fetchLoop_ok_noAdd (rest.length + f) hget hadded hnext hstop.1
      · cases hparse : parseOffsetFromURL p.Next with
        | none =>
          refine ⟨1, ⟨st.allReviews ++ p.Data.filter (qualifiesB opts.After), none,
            st.attempts ++ [st.currentOffset], st.backoffSleeps⟩, le_refl 1, by simp, rfl,
            by simp, rfl, by simp [allQualifying, qualFilter], ?_⟩
          intro f
          have hfuel : (p :: rest).length + f = (rest.length + f) + 1 := by
            simp [List.length_cons]; omega
          rw [hfuel]
          exact fetchLoop_ok_badNext (rest.length + f) hget hthrough hnext hstop hparse
        | some o =>
          set st1 : FetchState :=
            ⟨st.allReviews ++ p.Data.filter (qualifiesB opts.After),
              st.fetchedCount + (p.Data.filter (qualifiesB opts.After)).length, o,
              oneSecond, 0, st.attempts ++ [st.currentOffset], st.backoffSleeps⟩ with hst1
          have hdrop1 : pages.drop st1.attempts.length = rest := by
            rw [hst1]
            simp only [List.length_append, List.length_cons, List.length_nil]
            exact drop_succ_of_drop_cons hdrop
          have hlast1 : ∃ plast, rest.getLast? = some plast ∧ plast.Next = "" := by
            obtain ⟨plast, hl, hln⟩ := hlast
            refine ⟨plast, ?_, hln⟩
            cases rest with
            | nil => exact absurd rfl hrest
            | cons q qs => simpa using hl
          obtain ⟨k, res, hk1, hk2, herr, hatt, hslp, hrev, hrun⟩ := ih st1 hdrop1 hlast1
          refine ⟨k + 1, res, by omega, by simp; omega, herr, ?_, hslp, ?_, ?_⟩
          · rw [hatt, hst1]; simp; omega
          · rw [hrev, hst1, List.take_succ_cons]
            simp [allQualifying, qualFilter, List.flatMap_cons, List.append_assoc]
          · intro f
            have hfuel : (p :: rest).length + f = (rest.length + f) + 1 := by
              simp [List.length_cons]; omega
            rw [hfuel, fetchLoop_ok_cont (rest.length + f) hget hthrough hnext hstop hparse]
            exact hrun f

/-! ## Reaching the cap -/

/-- The (1-based) number of pages consumed until the cumulative qualifying
count first reaches `n`: the page with this index is the one that produces
the `n`-th qualifying review. -/
def pagesToReach (after : Option GoTime) (n : Nat) : List ReviewsResponse → Nat
  | [] => 0
  | p :: ps =>
    if n ≤ (qualFilter after p).length then 1
    else 1 + pagesToReach after (n - (qualFilter after p).length) ps

theorem pagesToReach_le (after : Option GoTime) :
    ∀ (l : List ReviewsResponse) (n : Nat), pagesToReach after n l ≤ l.length := by
  intro l
  induction l with
  | nil => intro n; simp [pagesToReach]
  | cons p ps ih =>
    intro n
    by_cases h : n ≤ (qualFilter after p).length
    · simp [pagesToReach, h]
    · simp only [pagesToReach, if_neg h, List.length_cons]
      have := ih (n - (qualFilter after p).length)
      omega

/-- Through the page producing the `n`-th qualifying review the cumulative
qualifying count reaches `n`, and it had not reached `n` one page earlier. -/
theorem pagesToReach_spec (after : Option GoTime) :
    ∀ (l : List ReviewsResponse) (n : Nat), 0 < n →
      n ≤ (allQualifying after l).length →
      n ≤ (allQualifying after (l.take (pagesToReach after n l))).length ∧
      (allQualifying after (l.take (pagesToReach after n l - 1))).length < n := by
  intro l
  induction l with
  | nil =>
    intro n hpos hle
    simp [allQualifying] at hle
    omega
  | cons p ps ih =>
    intro n hpos hle
    have hsplit : (allQualifying after (p :: ps)).length =
        (qualFilter after p).length + (allQualifying after ps).length := by
      simp [allQualifying, List.flatMap_cons]
    by_cases h : n ≤ (qualFilter after p).length
    · constructor
      · simp only [pagesToReach, if_pos h, List.take_succ_cons, List.take_zero]
        simp only [allQualifying, List.flatMap_cons, List.flatMap_nil,
          List.append_nil, List.length_append]
        omega
      · simp [pagesToReach, h, allQualifying]
        omega
    · have hrec := ih (n - (qualFilter after p).length) (by omega) (by omega)
      have hpos1 : 1 ≤ pagesToReach after (n - (qualFilter after p).length) ps := by
        cases ps with
        | nil =>
          exfalso
          simp [allQualifying] at hle
          omega
        | cons q qs => simp only [pagesToReach]; split <;> omega
      constructor
      · simp only [pagesToReach, if_neg h]
        have harith : 1 + pagesToReach after (n - (qualFilter after p).length) ps =
            (pagesToReach after (n - (qualFilter after p).length) ps) + 1 := by omega
        rw [harith, List.take_succ_cons]
        simp only [allQualifying, List.flatMap_cons, List.length_append]
        have := hrec.1
        simp only [allQualifying] at this
        omega
      · simp only [pagesToReach, if_neg h]
        have harith : 1 + pagesToReach after (n - (qualFilter after p).length) ps - 1 =
            (pagesToReach after (n - (qualFilter after p).length) ps - 1) + 1 := by
          omega
        rw [harith, List.take_succ_cons]
        simp only [allQualifying, List.flatMap_cons, List.length_append]
        have := hrec.2
        simp only [allQualifying] at this
        omega

theorem fetchLoop_pages_limit (pages : List ReviewsResponse) (opts : FetchOptions)
    (hM : 0 < opts.MaxLimit) :
    ∀ (rem : List ReviewsResponse) (st : FetchState) (n : Nat),
      pages.drop st.attempts.length = rem →
      st.fetchedCount + n = opts.MaxLimit → 0 < n →
      n ≤ (allQualifying opts.After rem).length →
      (∀ p ∈ rem.take (pagesToReach opts.After n rem - 1), chainOK opts.After p) →
      ∃ res : FetchDone,
        res.error = none ∧
        res.reviews = st.allReviews ++ (allQualifying opts.After rem).take n ∧
        res.attempts.length = st.attempts.length + pagesToReach opts.After n rem ∧
        res.backoffSleeps = st.backoffSleeps ∧
        ∀ f, fetchLoop (pagesFetch pages) opts (rem.length + f) st = some res := by
  intro rem
  induction rem with
  | nil =>
    intro st n _ _ hpos hle _
    simp [allQualifying] at hle
    omega
  | cons p ps ih =>
    intro st n hdrop hcnt hpos hle hchain
    have hget := pagesFetch_ok hdrop st.currentOffset
    have hqf : (qualFilter opts.After p).length =
        (p.Data.filter (qualifiesB opts.After)).length := rfl
    have hsplit : (allQualifying opts.After (p :: ps)).length =
        (qualFilter opts.After p).length + (allQualifying opts.After ps).length := by
      simp [allQualifying, List.flatMap_cons]
    by_cases hfirst : n ≤ (qualFilter opts.After p).length
    · have hhit := processReviews_hit opts p.Data st.allReviews st.fetchedCount false
        hM (by omega) (by omega)
      have hn : opts.MaxLimit - st.fetchedCount = n := by omega
      refine ⟨⟨st.allReviews ++
          (p.Data.filter (qualifiesB opts.After)).take (opts.MaxLimit - st.fetchedCount),
          none, st.attempts ++ [st.currentOffset], st.backoffSleeps⟩, rfl, ?_, ?_, rfl, ?_⟩
      · rw [hn]
        have htake : (allQualifying opts.After (p :: ps)).take n =
            (p.Data.filter (qualifiesB opts.After)).take n := by
          rw [show allQualifying opts.After (p :: ps) =
            p.Data.filter (qualifiesB opts.After) ++ allQualifying opts.After ps from by
              simp [allQualifying, qualFilter, List.flatMap_cons]]
          rw [List.take_append_eq_append_take]
          rw [show n - (p.Data.filter (qualifiesB opts.After)).length = 0 from by omega]
          simp
        rw [htake]
      · simp only [pagesToReach, if_pos hfirst]
        simp
      · intro f
        have hfuel : (p :: ps).length + f = (ps.length + f) + 1 := by
          simp [List.length_cons]; omega
        rw [hfuel]
        exact fetchLoop_ok_limit (ps.length + f) hget hhit
    · have hps : ps ≠ [] := by
        intro hp
        rw [hp] at hle
        simp [allQualifying, List.flatMap_cons, qualFilter] at hle
        rw [hp] at hsplit
        simp [allQualifying] at hsplit
        omega
      have hptr1 : 1 ≤ pagesToReach opts.After (n - (qualFilter opts.After p).length) ps := by
        cases ps with
        | nil => exact absurd rfl hps
        | cons q qs => simp only [pagesToReach]; split <;> omega
      have hptr : pagesToReach opts.After n (p :: ps) =
          1 + pagesToReach opts.After (n - (qualFilter opts.After p).length) ps := by
        simp [pagesToReach, hfirst]
      have hmem : p ∈ (p :: ps).take (pagesToReach opts.After n (p :: ps) - 1) := by
        rw [hptr, show 1 + pagesToReach opts.After (n - (qualFilter opts.After p).length) ps - 1 =
          (pagesToReach opts.After (n - (qualFilter opts.After p).length) ps - 1) + 1 from by omega,
          List.take_succ_cons]
        simp
      obtain ⟨⟨o, hparse⟩, hany⟩ := hchain p hmem
      have hthrough := processReviews_through opts p.Data st.allReviews st.fetchedCount
        false (Or.inr (by omega))
      have hpass : ¬ (opts.After.isSome = true ∧
          (false || p.Data.any (qualifiesB opts.After)) = false) := by
        rintro ⟨hs, hfalse⟩
        rw [Bool.false_or, hany hs] at hfalse
        exact Bool.noConfusion hfalse
      have hnext : p.Next ≠ "" := next_ne_empty_of_parse hparse
      set st1 : FetchState :=
        ⟨st.allReviews ++ p.Data.filter (qualifiesB opts.After),
          st.fetchedCount + (p.Data.filter (qualifiesB opts.After)).length, o,
          oneSecond, 0, st.attempts ++ [st.currentOffset], st.backoffSleeps⟩ with hst1
      have hdrop1 : pages.drop st1.attempts.length = ps := by
        rw [hst1]
        simp only [List.length_append, List.length_cons, List.length_nil]
        exact drop_succ_of_drop_cons hdrop
      have hchain1 : ∀ q ∈ ps.take
          (pagesToReach opts.After (n - (qualFilter opts.After p).length) ps - 1),
          chainOK opts.After q := by
        intro q hq
        refine hchain q ?_
        rw [hptr, show 1 + pagesToReach opts.After (n - (qualFilter opts.After p).length) ps - 1 =
          (pagesToReach opts.After (n - (qualFilter opts.After p).length) ps - 1) + 1 from by omega,
          List.take_succ_cons]
        simp [hq]
      obtain ⟨res, herr, hrev, hatt, hslp, hrun⟩ := ih st1
        (n - (qualFilter opts.After p).length) hdrop1 (by rw [hst1]; simp only []; omega)
        (by omega) (by omega) hchain1
      refine ⟨res, herr, ?_, ?_, ?_, ?_⟩
      · rw [hrev, hst1]
        simp only []
        rw [show allQualifying opts.After (p :: ps) =
          p.Data.filter (qualifiesB opts.After) ++ allQualifying opts.After ps from by
            simp [allQualifying, qualFilter, List.flatMap_cons]]
        rw [List.take_append_eq_append_take,
          List.take_of_length_le (by omega : (p.Data.filter (qualifiesB opts.After)).length ≤ n)]
        rw [List.append_assoc]
        rfl
      · rw [hatt, hst1, hptr]
        simp only [List.length_append, List.length_cons, List.length_nil]
        omega
      · rw [hslp, hst1]
      · intro f
        have hfuel : (p :: ps).length + f = (ps.length + f) + 1 := by
          simp [List.length_cons]; omega
        rw [hfuel, fetchLoop_ok_cont (ps.length + f) hget hthrough hnext hpass hparse]
        exact hrun f

/-! ## Characterizing when the next-link offset parse fails -/

/-- A character list contains an `offset=` marker immediately followed by an
ASCII digit somewhere. -/
def hasOffsetAt (l : List Char) : Prop :=
  ∃ pre d post,
    l = pre ++ 'o' :: 'f' :: 'f' :: 's' :: 'e' :: 't' :: '=' :: d :: post ∧
      isAsciiDigit d = true

/-- A URL string contains an `offset=<digits>` substring (the language of
the regex `offset=(\d+)` as a predicate on the whole string). -/
def hasOffsetParam (s : String) : Prop := hasOffsetAt s.data

theorem offsetMatchAt_iff (l : List Char) :
    offsetMatchAt l = true ↔
      ∃ d post,
        l = 'o' :: 'f' :: 'f' :: 's' :: 'e' :: 't' :: '=' :: d :: post ∧
          isAsciiDigit d = true := by
  constructor
  · intro h
    unfold offsetMatchAt at h
    split at h
    · next d post => exact ⟨d, post, rfl, h⟩
    · exact Bool.noConfusion h
  · rintro ⟨d, post, rfl, hd⟩
    exact hd

theorem findOffset_none_iff : ∀ l : List Char, findOffset l = none ↔ ¬ hasOffsetAt l := by
  intro l
  induction l with
  | nil =>
    simp only [findOffset, true_iff]
    rintro ⟨pre, d, post, h, _⟩
    cases pre <;> simp at h
  | cons c rest ih =>
    by_cases hm : offsetMatchAt (c :: rest) = true
    · refine iff_of_false (by simp [findOffset, hm]) ?_
      intro hno
      obtain ⟨d, post, heq, hd⟩ := (offsetMatchAt_iff (c :: rest)).1 hm
      exact hno ⟨[], d, post, by simpa using heq, hd⟩
    · have hm' : offsetMatchAt (c :: rest) = false := by simpa using hm
      have hstep : findOffset (c :: rest) = findOffset rest := by
        simp [findOffset, hm']
      rw [hstep, ih]
      constructor
      · intro hno hcr
        obtain ⟨pre, d, post, heq, hd⟩ := hcr
        cases pre with
        | nil =>
          exact hm ((offsetMatchAt_iff (c :: rest)).2 ⟨d, post, by simpa using heq, hd⟩)
        | cons a pre' =>
          simp only [List.cons_append, List.cons.injEq] at heq
          exact hno ⟨pre', d, post, heq.2, hd⟩
      · intro hno hr
        obtain ⟨pre, d, post, heq, hd⟩ := hr
        exact hno ⟨c :: pre, d, post, by simp [heq], hd⟩

theorem parseOffsetFromURL_none_iff (s : String) :
    parseOffsetFromURL s = none ↔ ¬ hasOffsetParam s :=
  findOffset_none_iff s.data

/-! ## Claim theorems: the pagination loop -/

/-- C1: for every finite sequence of upstream pages served in call order
whose final page reports no next cursor, with no fetch errors and no
total-count cap, `FetchAllReviews` terminates (any fuel of at least one unit
per page yields the same returned result) and returns nil error together
with exactly the concatenation, in page order, of the qualifying reviews
(parseable date, and not strictly before `opts.After` when set) of every
fetched page — the `k` pages actually fetched. -/
theorem C1_cursor_termination (pages : List ReviewsResponse) (opts : FetchOptions)
    (hlast : ∃ plast, pages.getLast? = some plast ∧ plast.Next = "")
    (hM : opts.MaxLimit = 0) :
    ∃ (k : Nat) (res : FetchDone), 1 ≤ k ∧ k ≤ pages.length ∧
      (∀ f, FetchAllReviews (pagesFetch pages) (some opts) (pages.length + f) = some res) ∧
      res.error = none ∧
      res.attempts.length = k ∧
      res.reviews = allQualifying opts.After (pages.take k) := by
  obtain ⟨k, res, h1, h2, herr, hatt, _, hrev, hrun⟩ :=
    fetchLoop_pages_done pages opts hM pages (initState opts) (by simp [initState]) hlast
  refine ⟨k, res, h1, h2, fun f => hrun f, herr, ?_, ?_⟩
  · simpa [initState] using hatt
  · simpa [initState] using hrev

/-- C2: when every upstream call signals rate-limiting, `FetchAllReviews`
makes exactly `maxRetries + 1 = 6` attempts, all at the unchanged starting
offset, sleeps 1s, 2s, 4s, 8s, 16s before the five retries (starting at 1s,
doubling after each rate-limited attempt, never above the 60s cap), and
returns the accumulated reviews with a "maximum retry attempts exceeded"
error.  Moreover (second conjunct) a successful page resets the backoff
delay and retry counter: after a streak of `k ≤ 5` rate-limited attempts
followed by one successful page, a fresh rate-limit incident again starts
its sleeps at 1s and is granted a full six attempts at the new offset. -/
theorem C2_backoff_bounds :
    (∀ (fetch : Nat → Nat → FetchResult) (opts : FetchOptions) (f : Nat),
      (∀ i off, isRLerrAt fetch i off) →
      ∃ m, fetch 5 opts.Offset = .err m ∧ isRateLimited m = true ∧
        FetchAllReviews fetch (some opts) (6 + f) =
          some ⟨[], some ("maximum retry attempts exceeded: " ++ m),
            List.replicate 6 opts.Offset,
            [oneSecond, 2 * oneSecond, 4 * oneSecond, 8 * oneSecond,
              16 * oneSecond]⟩ ∧
        ∀ s ∈ [oneSecond, 2 * oneSecond, 4 * oneSecond, 8 * oneSecond,
            16 * oneSecond], s ≤ maxBackoffDelay) ∧
    (∀ (fetch : Nat → Nat → FetchResult) (opts : FetchOptions) (f k : Nat)
      (page : ReviewsResponse) (o : Nat), k ≤ 5 →
      (∀ i off, i < k → isRLerrAt fetch i off) →
      fetch k opts.Offset = .ok page →
      page.Data = [] → opts.After = none →
      parseOffsetFromURL page.Next = some o →
      (∀ i off, k < i → isRLerrAt fetch i off) →
      ∃ m, fetch (k + 6) o = .err m ∧
        FetchAllReviews fetch (some opts) ((k + 7) + f) =
          some ⟨[], some ("maximum retry attempts exceeded: " ++ m),
            List.replicate (k + 1) opts.Offset ++ List.replicate 6 o,
            (List.range k).map (fun j => 2 ^ j * oneSecond) ++
              [oneSecond, 2 * oneSecond, 4 * oneSecond, 8 * oneSecond,
                16 * oneSecond]⟩) := by
  constructor
  · intro fetch opts f hrl
    obtain ⟨m, hm, hmrl, hloop⟩ := fetchLoop_rl_exhaust fetch opts
      (initState opts) f rfl rfl (fun i _ => hrl i opts.Offset)
    refine ⟨m, by simpa [initState] using hm, hmrl, ?_, ?_⟩
    · simpa [initState] using hloop
    · intro s hs
      simp only [maxBackoffDelay, oneSecond] at *
      fin_cases hs <;> norm_num
  · intro fetch opts f k page o hk hpre hokpage hempty hafter hparse hpost
    have hchain : fetchLoop fetch opts (k + (1 + (6 + f))) (initState opts) =
        fetchLoop fetch opts (1 + (6 + f)) (rlIter k (initState opts)) :=
      fetchLoop_rl_chain k (initState opts) (1 + (6 + f))
        (fun i h1 h2 => hpre i opts.Offset (by simpa [initState] using h2))
        (by simp [initState, maxRetries]; omega)
    set SkE : FetchState :=
      ⟨[], 0, opts.Offset, 2 ^ k * oneSecond, k, List.replicate k opts.Offset,
        (List.range k).map (fun j => 2 ^ j * oneSecond)⟩ with hSkE
    have hSk : rlIter k (initState opts) = SkE := by
      rw [rlIter_fields k (initState opts) rfl rfl hk, hSkE]
      simp [initState]
    have hget : fetch SkE.attempts.length SkE.currentOffset = .ok page := by
      rw [hSkE]
      simpa using hokpage
    have hthrough : processReviews opts page.Data SkE.allReviews SkE.fetchedCount false =
        .through SkE.allReviews SkE.fetchedCount false := by
      rw [hempty]; rfl
    have hnext : page.Next ≠ "" := next_ne_empty_of_parse hparse
    have hpass : ¬ (opts.After.isSome = true ∧ (false : Bool) = false) := by
      rintro ⟨hs, _⟩
      rw [hafter] at hs
      exact Bool.noConfusion hs
    have hstep := fetchLoop_ok_cont (6 + f) hget hthrough hnext hpass hparse
    set S1 : FetchState :=
      ⟨SkE.allReviews, SkE.fetchedCount, o, oneSecond, 0,
        SkE.attempts ++ [SkE.currentOffset], SkE.backoffSleeps⟩ with hS1
    have hS1len : S1.attempts.length = k + 1 := by
      rw [hS1, hSkE]; simp
    have hS1off : S1.currentOffset = o := by rw [hS1]
    obtain ⟨m, hm, hmrl, hloop⟩ := fetchLoop_rl_exhaust fetch opts
      S1 f rfl rfl (fun i hi => by
        rw [hS1off]
        refine hpost i o ?_
        rw [hS1len] at hi
        omega)
    rw [hS1len, hS1off] at hm
    refine ⟨m, by simpa using hm, ?_⟩
    show fetchLoop fetch opts ((k + 7) + f) (initState opts) = _
    rw [show (k + 7) + f = k + (1 + (6 + f)) from by omega, hchain, hSk,
      show (1 : Nat) + (6 + f) = (6 + f) + 1 from by omega, hstep, hloop]
    rw [hS1, hSkE]
    simp [List.replicate_succ', List.append_assoc]

/-- C3: with a positive cap `MaxLimit = N` and a call-ordered upstream
containing at least `N` qualifying reviews (pages before the one producing
the `N`-th qualifying review being well-linked), `FetchAllReviews` returns
exactly `N` reviews — the first `N` qualifying ones — with nil error,
returning as soon as the `N`-th qualifying review is appended: the number of
pages fetched is `pagesToReach ... N pages`, the index of the page producing
the `N`-th qualifying review, so no page beyond that one is fetched (last
two conjuncts: the fetched pages reach `N` qualifying reviews and the pages
before the last fetched one do not). -/
theorem C3_limit_short_circuit (pages : List ReviewsResponse) (opts : FetchOptions)
    (hM : 0 < opts.MaxLimit)
    (htotal : opts.MaxLimit ≤ (allQualifying opts.After pages).length)
    (hchain : ∀ p ∈ pages.take (pagesToReach opts.After opts.MaxLimit pages - 1),
      chainOK opts.After p) :
    ∃ res : FetchDone,
      (∀ f, FetchAllReviews (pagesFetch pages) (some opts) (pages.length + f) = some res) ∧
      res.error = none ∧
      res.reviews = (allQualifying opts.After pages).take opts.MaxLimit ∧
      res.reviews.length = opts.MaxLimit ∧
      res.attempts.length = pagesToReach opts.After opts.MaxLimit pages ∧
      opts.MaxLimit ≤
        (allQualifying opts.After (pages.take res.attempts.length)).length ∧
      (allQualifying opts.After (pages.take (res.attempts.length - 1))).length <
        opts.MaxLimit := by
  obtain ⟨res, herr, hrev, hatt, _, hrun⟩ :=
    fetchLoop_pages_limit pages opts hM pages (initState opts) opts.MaxLimit
      (by simp [initState]) (by simp [initState]) hM htotal hchain
  have hatt' : res.attempts.length = pagesToReach opts.After opts.MaxLimit pages := by
    simpa [initState] using hatt
  have hspec := pagesToReach_spec opts.After pages opts.MaxLimit hM htotal
  refine ⟨res, fun f => hrun f, herr, by simpa [initState] using hrev, ?_, hatt', ?_, ?_⟩
  · rw [show res.reviews = (allQualifying opts.After pages).take opts.MaxLimit from by
      simpa [initState] using hrev]
    rw [List.length_take]
    omega
  · rw [hatt']; exact hspec.1
  · rw [hatt']; exact hspec.2

/-- C4: with a date filter `After = some D`, when the loop reaches a page
(after `k` well-linked pages) all of whose reviews have an unparsable date
or a parsed date strictly before `D`, `FetchAllReviews` stops right there —
`k + 1` fetch calls, so the next page is never fetched even though this page
reports a next cursor — and returns the reviews accumulated so far with nil
error. -/
theorem C4_date_filter_stop (pages pre rest : List ReviewsResponse)
    (pk : ReviewsResponse) (opts : FetchOptions) (D : GoTime) (f : Nat)
    (hAfter : opts.After = some D)
    (hsplit : pages = pre ++ pk :: rest)
    (hchain : ∀ p ∈ pre, chainOK opts.After p)
    (hlim : opts.MaxLimit = 0 ∨
      (allQualifying opts.After pre).length < opts.MaxLimit)
    (hstale : ∀ r ∈ pk.Data, parseReviewDate r.Attributes.Date = none ∨
      ∃ d, parseReviewDate r.Attributes.Date = some d ∧ dtBefore d D = true)
    (hnext : pk.Next ≠ "") :
    ∃ res : FetchDone,
      FetchAllReviews (pagesFetch pages) (some opts) ((pre.length + 1) + f) = some res ∧
      res.error = none ∧
      res.attempts.length = pre.length + 1 ∧
      res.reviews = allQualifying opts.After pre := by
  have hinit : pages.drop (initState opts).attempts.length = pre ++ pk :: rest := by
    simpa [initState] using hsplit
  obtain ⟨o, offs, hofflen, hwalk⟩ := fetchLoop_walk pages opts pre (pk :: rest)
    (initState opts) (1 + f) hinit rfl rfl
    (by
      rcases hlim with h0 | hlt
      · exact Or.inl h0
      · right; simpa [initState] using hlt)
    hchain
  set st1 : FetchState :=
    ⟨(initState opts).allReviews ++ allQualifying opts.After pre,
      (initState opts).fetchedCount + (allQualifying opts.After pre).length, o,
      oneSecond, 0, (initState opts).attempts ++ offs,
      (initState opts).backoffSleeps⟩ with hst1
  have hdrop1 : pages.drop st1.attempts.length = pk :: rest := by
    rw [hst1]
    simp only [initState, List.nil_append, List.length_nil, Nat.zero_add]
    rw [hofflen, hsplit]
    exact List.drop_left pre (pk :: rest)
  have hget := pagesFetch_ok hdrop1 st1.currentOffset
  have hstaleB : pk.Data.filter (qualifiesB opts.After) = [] := by
    rw [List.filter_eq_nil_iff]
    intro r hr
    rcases hstale r hr with hnone | ⟨d, hd, hbef⟩
    · simp [qualifiesB, hnone]
    · simp [qualifiesB, hd, hAfter, hbef]
  have hthrough := processReviews_through opts pk.Data st1.allReviews st1.fetchedCount
    false (by
      rcases hlim with h0 | hlt
      · exact Or.inl h0
      · right
        rw [hstaleB, hst1]
        simp only [initState, List.nil_append, List.length_nil, Nat.zero_add,
          List.length_nil]
        simpa using hlt)
  have hadded : processReviews opts pk.Data st1.allReviews st1.fetchedCount false =
      .through (st1.allReviews ++ pk.Data.filter (qualifiesB opts.After))
        (st1.fetchedCount + (pk.Data.filter (qualifiesB opts.After)).length) false := by
    rw [hthrough]
    have : pk.Data.any (qualifiesB opts.After) = false :=
      List.any_eq_false.mpr (List.filter_eq_nil_iff.mp hstaleB)
    rw [this, Bool.or_false]
  have hstop := fetchLoop_ok_noAdd f hget hadded hnext (by rw [hAfter]; rfl)
  refine ⟨⟨st1.allReviews ++ pk.Data.filter (qualifiesB opts.After), none,
    st1.attempts ++ [st1.currentOffset], st1.backoffSleeps⟩, ?_, rfl, ?_, ?_⟩
  · show fetchLoop (pagesFetch pages) opts ((pre.length + 1) + f) (initState opts) = _
    rw [show (pre.length + 1) + f = pre.length + (1 + f) from by omega, hwalk,
      show (1 : Nat) + f = f + 1 from by omega]
    exact hstop
  · rw [hst1]
    simp [initState, hofflen]
  · rw [hstaleB, hst1]
    simp [initState]

/-- C10: when the loop reaches a page (after `k` well-linked pages) whose
next link is non-empty but contains no `offset=<digits>` substring — and
neither the cap nor the date-filter stop fires there — `FetchAllReviews`
stops paginating: `k + 1` fetch calls, nil error, and the reviews
accumulated so far (this page's qualifying reviews included).  The malformed
next link is silently treated as exhaustion, not reported as a failure. -/
theorem C10_malformed_next_link (pages pre rest : List ReviewsResponse)
    (pk : ReviewsResponse) (opts : FetchOptions) (f : Nat)
    (hsplit : pages = pre ++ pk :: rest)
    (hchain : ∀ p ∈ pre, chainOK opts.After p)
    (hlim : opts.MaxLimit = 0 ∨
      (allQualifying opts.After (pre ++ [pk])).length < opts.MaxLimit)
    (hpass : opts.After.isSome = true → pk.Data.any (qualifiesB opts.After) = true)
    (hnonempty : pk.Next ≠ "")
    (hnooffset : ¬ hasOffsetParam pk.Next) :
    ∃ res : FetchDone,
      FetchAllReviews (pagesFetch pages) (some opts) ((pre.length + 1) + f) = some res ∧
      res.error = none ∧
      res.attempts.length = pre.length + 1 ∧
      res.reviews = allQualifying opts.After (pre ++ [pk]) := by
  have hparse : parseOffsetFromURL pk.Next = none :=
    (parseOffsetFromURL_none_iff pk.Next).mpr hnooffset
  have hinit : pages.drop (initState opts).attempts.length = pre ++ pk :: rest := by
    simpa [initState] using hsplit
  have hlensplit : (allQualifying opts.After (pre ++ [pk])).length =
      (allQualifying opts.After pre).length +
        (pk.Data.filter (qualifiesB opts.After)).length := by
    simp [allQualifying, qualFilter]
  obtain ⟨o, offs, hofflen, hwalk⟩ := fetchLoop_walk pages opts pre (pk :: rest)
    (initState opts) (1 + f) hinit rfl rfl
    (by
      rcases hlim with h0 | hlt
      · exact Or.inl h0
      · right
        simp only [initState]
        omega)
    hchain
  set st1 : FetchState :=
    ⟨(initState opts).allReviews ++ allQualifying opts.After pre,
      (initState opts).fetchedCount + (allQualifying opts.After pre).length, o,
      oneSecond, 0, (initState opts).attempts ++ offs,
      (initState opts).backoffSleeps⟩ with hst1
  have hdrop1 : pages.drop st1.attempts.length = pk :: rest := by
    rw [hst1]
    simp only [initState, List.nil_append, List.length_nil, Nat.zero_add]
    rw [hofflen, hsplit]
    exact List.drop_left pre (pk :: rest)
  have hget := pagesFetch_ok hdrop1 st1.currentOffset
  have hthrough := processReviews_through opts pk.Data st1.allReviews st1.fetchedCount
    false (by
      rcases hlim with h0 | hlt
      · exact Or.inl h0
      · right
        rw [hst1]
        simp only [initState, List.nil_append, List.length_nil, Nat.zero_add]
        omega)
  have hnostop : ¬ (opts.After.isSome = true ∧
      (false || pk.Data.any (qualifiesB opts.After)) = false) := by
    rintro ⟨hs, hfalse⟩
    rw [Bool.false_or, hpass hs] at hfalse
    exact Bool.noConfusion hfalse
  have hstop := fetchLoop_ok_badNext f hget hthrough hnonempty hnostop hparse
  refine ⟨⟨st1.allReviews ++ pk.Data.filter (qualifiesB opts.After), none,
    st1.attempts ++ [st1.currentOffset], st1.backoffSleeps⟩, ?_, rfl, ?_, ?_⟩
  · show fetchLoop (pagesFetch pages) opts ((pre.length + 1) + f) (initState opts) = _
    rw [show (pre.length + 1) + f = pre.length + (1 + f) from by omega, hwalk,
      show (1 : Nat) + f = f + 1 from by omega]
    exact hstop
  · rw [hst1]
    simp [initState, hofflen]
  · rw [hst1]
    simp [initState, allQualifying, qualFilter]

/-! ## Service-layer lemmas -/

theorem handleReviewsByCountry_fetch_ok {fetch : Nat → Nat → FetchResult}
    (saveFails : String → Bool) {evt : ExtractRequest} (country : String)
    {maxLimit fuel : Nat} (store : List RawReviewRow) {res : FetchDone}
    (hfetch : fetchLoop fetch (countryOpts evt maxLimit) fuel
      (initState (countryOpts evt maxLimit)) = some res)
    (herr : res.error = none) :
    handleReviewsByCountry fetch saveFails evt country maxLimit fuel store =
      some (res.reviews.length, none,
        saveReviews saveFails evt.AppID country res.reviews store) := by
  simp [handleReviewsByCountry, hfetch, herr]

theorem handleReviewsByCountry_fetch_err {fetch : Nat → Nat → FetchResult}
    (saveFails : String → Bool) {evt : ExtractRequest} (country : String)
    {maxLimit fuel : Nat} (store : List RawReviewRow) {res : FetchDone} {e : String}
    (hfetch : fetchLoop fetch (countryOpts evt maxLimit) fuel
      (initState (countryOpts evt maxLimit)) = some res)
    (herr : res.error = some e) :
    handleReviewsByCountry fetch saveFails evt country maxLimit fuel store =
      some (0, some ("failed to fetch reviews for country " ++ country ++ ": " ++ e),
        store) := by
  simp [handleReviewsByCountry, hfetch, herr]

/-- The fetch the saga step runs for one country succeeds within `fuel`. -/
def countryOK (fetch : Nat → Nat → FetchResult) (evt : ExtractRequest)
    (fuel : Nat) : Prop :=
  ∃ res : FetchDone,
    fetchLoop fetch (countryOpts evt serviceLimit) fuel
      (initState (countryOpts evt serviceLimit)) = some res ∧ res.error = none

theorem processCountries_ok_pre (fetch : String → Nat → Nat → FetchResult)
    (saveFails : String → String → Bool) (evt : ExtractRequest) (fuel : Nat) :
    ∀ (pre : List String) (store : List RawReviewRow),
      (∀ c ∈ pre, countryOK (fetch c) evt fuel) →
      ∃ (tot : Nat) (st1 : List RawReviewRow),
        processCountries fetch saveFails evt fuel pre store = some (none, tot, st1, pre) ∧
        ∀ rest, processCountries fetch saveFails evt fuel (pre ++ rest) store =
          match processCountries fetch saveFails evt fuel rest st1 with
          | none => none
          | some (e, t, s, l) => some (e, tot + t, s, pre ++ l) := by
  intro pre
  induction pre with
  | nil =>
    intro store _
    refine ⟨0, store, rfl, ?_⟩
    intro rest
    cases h : processCountries fetch saveFails evt fuel rest store with
    | none => simpa using h
    | some v =>
      obtain ⟨e, t, s, l⟩ := v
      simpa using h
  | cons c cs ih =>
    intro store hok
    obtain ⟨res, hres, herr⟩ := hok c (by simp)
    have hc := handleReviewsByCountry_fetch_ok (saveFails c) c store hres herr
    obtain ⟨tot, st1, h1, h2⟩ := ih
      (saveReviews (saveFails c) evt.AppID c res.reviews store)
      (fun q hq => hok q (by simp [hq]))
    refine ⟨res.reviews.length + tot, st1, ?_, ?_⟩
    · simp only [processCountries, hc, h1]
    · intro rest
      simp only [List.cons_append, processCountries, hc, List.append_eq]
      rw [h2 rest]
      cases h : processCountries fetch saveFails evt fuel rest st1 with
      | none => rfl
      | some v =>
        obtain ⟨e, t, s, l⟩ := v
        have harith : res.reviews.length + (tot + t) = res.reviews.length + tot + t := by
          omega
        simp [harith]

/-- C6: with a valid request and a successful token extraction, if the fetch
for country `ck` fails after the countries of `pre` all succeed, `Handle`
returns an error, publishes no completion event, attempts no country after
`ck`, and leaves exactly the rows persisted while processing `pre` (the
store produced by `processCountries` on `pre`, which `ck`'s failing fetch
does not change).  Conversely (second conjunct) when every country's fetch
succeeds and publication succeeds, `Handle` publishes exactly one completion
event, carrying the per-country total. -/
theorem C6_saga_failure_isolation :
    (∀ (fetch : String → Nat → Nat → FetchResult)
      (saveFails : String → String → Bool) (token : String) (publishFails : Bool)
      (evt : ExtractRequest) (fuel : Nat) (store : List RawReviewRow)
      (pre post : List String) (ck : String),
      validateRequest evt = true →
      evt.Countries = pre ++ ck :: post →
      (∀ c ∈ pre, countryOK (fetch c) evt fuel) →
      (∃ res e, fetchLoop (fetch ck) (countryOpts evt serviceLimit) fuel
        (initState (countryOpts evt serviceLimit)) = some res ∧ res.error = some e) →
      ∃ (tot : Nat) (st1 : List RawReviewRow) (emsg : String),
        processCountries fetch saveFails evt fuel pre store = some (none, tot, st1, pre) ∧
        Handle fetch saveFails (.ok token) publishFails evt fuel store =
          some ⟨some emsg, st1, [], pre ++ [ck]⟩) ∧
    (∀ (fetch : String → Nat → Nat → FetchResult)
      (saveFails : String → String → Bool) (token : String)
      (evt : ExtractRequest) (fuel : Nat) (store : List RawReviewRow),
      validateRequest evt = true →
      (∀ c ∈ evt.Countries, countryOK (fetch c) evt fuel) →
      ∃ (tot : Nat) (st1 : List RawReviewRow),
        Handle fetch saveFails (.ok token) false evt fuel store =
          some ⟨none, st1, [(evt, tot)], evt.Countries⟩) := by
  constructor
  · intro fetch saveFails token publishFails evt fuel store pre post ck hval hsplit
      hok hfail
    obtain ⟨res, e, hres, herr⟩ := hfail
    obtain ⟨tot, st1, h1, h2⟩ := processCountries_ok_pre fetch saveFails evt fuel
      pre store hok
    have hck := handleReviewsByCountry_fetch_err (saveFails ck) ck st1 hres herr
    have hall : processCountries fetch saveFails evt fuel evt.Countries store =
        some (some ("failed to process country " ++ ck ++ ": " ++
          ("failed to fetch reviews for country " ++ ck ++ ": " ++ e)), tot + 0, st1,
          pre ++ [ck]) := by
      rw [hsplit, h2 (ck :: post)]
      simp only [processCountries, hck]
    refine ⟨tot, st1, "failed to process country " ++ ck ++ ": " ++
      ("failed to fetch reviews for country " ++ ck ++ ": " ++ e), h1, ?_⟩
    simp only [Handle, hval, Bool.not_true, Bool.false_eq_true, if_false, hall]
    simp
  · intro fetch saveFails token evt fuel store hval hok
    obtain ⟨tot, st1, h1, _⟩ := processCountries_ok_pre fetch saveFails evt fuel
      evt.Countries store hok
    refine ⟨tot, st1, ?_⟩
    simp only [Handle, hval, Bool.not_true, Bool.false_eq_true, if_false, h1]
    simp

/-- C7: an individual `SaveRawReview` failure is swallowed: whenever the
fetch succeeds, `handleReviewsByCountry` returns success with count equal to
the number of reviews fetched, for every save-failure pattern (first
conjunct); the returned count and error do not depend on the save-failure
pattern or the store at all (second conjunct); and the save pass always
continues with the remaining reviews after a failed or skipped save (third
conjunct: one step of the fold). -/
theorem C7_save_errors_swallowed (fetch : Nat → Nat → FetchResult)
    (evt : ExtractRequest) (country : String) (maxLimit fuel : Nat)
    (res : FetchDone)
    (hfetch : fetchLoop fetch (countryOpts evt maxLimit) fuel
      (initState (countryOpts evt maxLimit)) = some res)
    (herr : res.error = none) :
    (∀ (saveFails : String → Bool) (store : List RawReviewRow),
      handleReviewsByCountry fetch saveFails evt country maxLimit fuel store =
        some (res.reviews.length, none,
          saveReviews saveFails evt.AppID country res.reviews store)) ∧
    (∀ (saveFails₁ saveFails₂ : String → Bool) (store₁ store₂ : List RawReviewRow),
      (handleReviewsByCountry fetch saveFails₁ evt country maxLimit fuel store₁).map
          (fun x => (x.1, x.2.1)) =
        (handleReviewsByCountry fetch saveFails₂ evt country maxLimit fuel store₂).map
          (fun x => (x.1, x.2.1))) ∧
    (∀ (saveFails : String → Bool) (appID ctry : String) (rv : Review)
      (rs : List Review) (st : List RawReviewRow),
      saveReviews saveFails appID ctry (rv :: rs) st =
        saveReviews saveFails appID ctry rs
          (match parseReviewDate rv.Attributes.Date with
           | none => st
           | some dd =>
             if saveFails rv.ID then st
             else (SaveRawReview st (rowOfReview appID ctry rv dd)).1)) := by
  refine ⟨?_, ?_, ?_⟩
  · intro saveFails store
    exact handleReviewsByCountry_fetch_ok saveFails country store hfetch herr
  · intro s1 s2 st1 st2
    rw [handleReviewsByCountry_fetch_ok s1 country st1 hfetch herr,
      handleReviewsByCountry_fetch_ok s2 country st2 hfetch herr]
    rfl
  · intro saveFails appID ctry rv rs st
    simp only [saveReviews, List.foldl_cons]

/-- C8: `SaveRawReview` is idempotent in the review id: saving a row whose
id is already present leaves the table unchanged and reports no error;
saving the same row twice equals saving it once; and when the table held at
most one row with that id (the primary-key invariant), exactly one such row
remains after the save, with its original fields intact (the table is
unchanged in the conflicting case). -/
theorem C8_idempotent_save (store : List RawReviewRow) (row : RawReviewRow) :
    ((store.any fun r => r.id == row.id) = true → (SaveRawReview store row).1 = store) ∧
    (SaveRawReview store row).2 = none ∧
    (SaveRawReview (SaveRawReview store row).1 row).1 = (SaveRawReview store row).1 ∧
    ((store.countP fun r => r.id == row.id) ≤ 1 →
      ((SaveRawReview store row).1.countP fun r => r.id == row.id) = 1) := by
  refine ⟨?_, rfl, ?_, ?_⟩
  · intro h
    simp [SaveRawReview, h]
  · by_cases h : (store.any fun r => r.id == row.id) = true
    · simp [SaveRawReview, h]
    · have h' : (store.any fun r => r.id == row.id) = false := by simpa using h
      have happ : ((store ++ [row]).any fun r => r.id == row.id) = true := by
        rw [List.any_append]
        simp
      simp [SaveRawReview, h', happ]
  · intro hle
    by_cases h : (store.any fun r => r.id == row.id) = true
    · have hpos : 0 < store.countP fun r => r.id == row.id := by
        rw [List.countP_pos_iff]
        exact List.any_eq_true.mp h
      simp [SaveRawReview, h]
      omega
    · have h' : (store.any fun r => r.id == row.id) = false := by simpa using h
      have hzero : (store.countP fun r => r.id == row.id) = 0 := by
        rw [List.countP_eq_zero]
        intro a ha
        have := List.any_eq_false.mp h' a ha
        simpa using this
      simp [SaveRawReview, h', List.countP_append, hzero]

/-- C9: the `After` pointer the saga step passes to the fetch is always
non-nil — the parsed `dateFrom` when it parses, the zero time otherwise
(first conjunct) — so the early-termination heuristic is always active: for
every request, a fetched page in which no review has a parseable date ends
pagination for that country even when the page reports a next cursor
(second conjunct: the per-country handler returns count 0 without touching
the store, no matter what the upstream would serve on later calls). -/
theorem C9_zero_time_after_always_set :
    (∀ (evt : ExtractRequest) (maxLimit : Nat),
      (countryOpts evt maxLimit).After =
        some ((parseDateFrom evt.DateFrom).getD zeroGoTime)) ∧
    (∀ (fetch : Nat → Nat → FetchResult) (saveFails : String → Bool)
      (evt : ExtractRequest) (country : String) (maxLimit fuel : Nat)
      (store : List RawReviewRow) (page : ReviewsResponse),
      fetch 0 0 = .ok page →
      (∀ r ∈ page.Data, parseReviewDate r.Attributes.Date = none) →
      page.Next ≠ "" →
      handleReviewsByCountry fetch saveFails evt country maxLimit (fuel + 1) store =
        some (0, none, store)) := by
  constructor
  · intro evt maxLimit
    rfl
  · intro fetch saveFails evt country maxLimit fuel store page hok hunp hnext
    set opts := countryOpts evt maxLimit with hopts
    have hfil : page.Data.filter (qualifiesB opts.After) = [] := by
      rw [List.filter_eq_nil_iff]
      intro r hr
      simp [qualifiesB, hunp r hr]
    have hget : fetch (initState opts).attempts.length (initState opts).currentOffset =
        .ok page := by
      simpa [initState, hopts, countryOpts] using hok
    have hthrough := processReviews_through opts page.Data
      (initState opts).allReviews (initState opts).fetchedCount false
      (by
        rcases Nat.eq_zero_or_pos opts.MaxLimit with h0 | hpos
        · exact Or.inl h0
        · right
          rw [hfil]
          simpa [initState] using hpos)
    have hadded : processReviews opts page.Data (initState opts).allReviews
        (initState opts).fetchedCount false =
        .through ((initState opts).allReviews ++ page.Data.filter (qualifiesB opts.After))
          ((initState opts).fetchedCount +
            (page.Data.filter (qualifiesB opts.After)).length) false := by
      rw [hthrough]
      have : page.Data.any (qualifiesB opts.After) = false :=
        List.any_eq_false.mpr (List.filter_eq_nil_iff.mp hfil)
      rw [this, Bool.or_false]
    have hafter : opts.After.isSome = true := by rw [hopts]; rfl
    have hstop := fetchLoop_ok_noAdd fuel hget hadded hnext hafter
    have hres : fetchLoop fetch opts (fuel + 1) (initState opts) =
        some ⟨[], none, [opts.Offset], []⟩ := by
      rw [hstop, hfil]
      simp [initState]
    have := handleReviewsByCountry_fetch_ok saveFails country store hres rfl
    rw [this]
    rfl

/-! ## C5: a missing or unparsable dateFrom is not the same as no filter -/

theorem parseReviewDate_valid {s : String} {d : GoTime}
    (h : parseReviewDate s = some d) : validGoTime d = true := by
  unfold parseReviewDate at h
  split at h
  · split at h
    · dsimp only [] at h
      split at h
      · next hv => exact Option.some.inj h ▸ hv
      · exact Option.noConfusion h
    · exact Option.noConfusion h
  · exact Option.noConfusion h

/-- Upstream for the C5 scenario: page 0 holds one review with an unparsable
date and a next cursor; page 1 holds one review with a valid date and no
cursor. -/
def c5Fetch : Nat → Nat → FetchResult := fun i _ =>
  if i = 0 then
    .ok ⟨"u?offset=1", [⟨"r-bad", ⟨"not-a-date", 3, "meh", "t", none⟩⟩]⟩
  else if i = 1 then
    .ok ⟨"", [⟨"r-good", ⟨"2024-05-01T10:00:00Z", 5, "great", "t", none⟩⟩]⟩
  else .err "no more pages"

/-- The C5 request: no `dateFrom` at all. -/
def c5Evt : ExtractRequest := ⟨"app1", "AppOne", ["US"], ""⟩

/-- C5 as stated is false: with `dateFrom` absent the per-country fetch does
NOT behave as a fetch with no `After` constraint.  On the same upstream the
code path (zero-time `After` pointer) stops at the first page — whose only
review has an unparsable date — and yields count 0, while the same loop with
`After = none` continues to page 1 and returns 1 review. -/
theorem C5_counterexample :
    handleReviewsByCountry c5Fetch (fun _ => false) c5Evt "US" 500 2 [] =
      some (0, none, []) ∧
    ∃ res : FetchDone,
      FetchAllReviews c5Fetch (some ⟨20, 0, none, 500, none⟩) 2 = some res ∧
      res.reviews.length = 1 ∧ res.error = none ∧ res.attempts = [0, 1] := by
  refine ⟨rfl, ⟨⟨[⟨"r-good", ⟨"2024-05-01T10:00:00Z", 5, "great", "t", none⟩⟩],
    none, [0, 1], []⟩, rfl, rfl, rfl, rfl⟩⟩

/-- C5 amended: when `dateFrom` is absent or unparsable, `Handle` processes
the country without aborting, but with `After` pointing at the zero time
rather than nil (first conjunct: the options built in that case).  The date
comparison then excludes no review whose parsed date has year at least 1
(second conjunct — every date the fixed layout can produce except year
0000), but the date-based early-termination heuristic remains active: with
any non-nil `After`, a first page contributing zero qualifying reviews ends
pagination despite a non-empty next cursor (third conjunct). -/
theorem C5_amended_zero_time_filter :
    (∀ (evt : ExtractRequest) (maxLimit : Nat), parseDateFrom evt.DateFrom = none →
      countryOpts evt maxLimit = ⟨20, 0, some zeroGoTime, maxLimit, none⟩) ∧
    (∀ (s : String) (d : GoTime), parseReviewDate s = some d → 1 ≤ d.year →
      dtBefore d zeroGoTime = false) ∧
    (∀ (fetch : Nat → Nat → FetchResult) (opts : FetchOptions) (fuel : Nat)
      (page : ReviewsResponse),
      opts.After.isSome = true →
      fetch 0 opts.Offset = .ok page →
      page.Data.filter (qualifiesB opts.After) = [] →
      page.Next ≠ "" →
      fetchLoop fetch opts (fuel + 1) (initState opts) =
        some ⟨[], none, [opts.Offset], []⟩) := by
  refine ⟨?_, ?_, ?_⟩
  · intro evt maxLimit hnone
    simp [countryOpts, hnone]
  · intro s d hparse hyear
    have hvalid := parseReviewDate_valid hparse
    simp only [validGoTime, decide_eq_true_eq] at hvalid
    simp only [dtBefore, zeroGoTime, decide_eq_false_iff_not]
    omega
  · intro fetch opts fuel page hafter hok hfil hnext
    have hget : fetch (initState opts).attempts.length (initState opts).currentOffset =
        .ok page := by
      simpa [initState] using hok
    have hthrough := processReviews_through opts page.Data
      (initState opts).allReviews (initState opts).fetchedCount false
      (by
        rcases Nat.eq_zero_or_pos opts.MaxLimit with h0 | hpos
        · exact Or.inl h0
        · right
          rw [hfil]
          simpa [initState] using hpos)
    have hadded : processReviews opts page.Data (initState opts).allReviews
        (initState opts).fetchedCount false =
        .through ((initState opts).allReviews ++ page.Data.filter (qualifiesB opts.After))
          ((initState opts).fetchedCount +
            (page.Data.filter (qualifiesB opts.After)).length) false := by
      rw [hthrough]
      have : page.Data.any (qualifiesB opts.After) = false :=
        List.any_eq_false.mpr (List.filter_eq_nil_iff.mp hfil)
      rw [this, Bool.or_false]
    have hstop := fetchLoop_ok_noAdd fuel hget hadded hnext hafter
    rw [hstop, hfil]
    simp [initState]

/-! ## Concrete scenario data for the witnesses -/

def wGood : Review := ⟨"w1", ⟨"2024-05-01T10:00:00Z", 5, "great", "t", none⟩⟩

def wOld : Review := ⟨"w2", ⟨"2020-01-01T00:00:00Z", 2, "old", "t", none⟩⟩

def wBad : Review := ⟨"w3", ⟨"nope", 1, "bad", "t", none⟩⟩

def w1Pages : List ReviewsResponse :=
  [⟨"u?offset=20", [wGood, wBad]⟩, ⟨"", [wGood]⟩]

def w1Opts : FetchOptions := ⟨20, 0, none, 0, none⟩

theorem C1_witness :
    ∃ (k : Nat) (res : FetchDone), 1 ≤ k ∧ k ≤ w1Pages.length ∧
      (∀ f, FetchAllReviews (pagesFetch w1Pages) (some w1Opts)
        (w1Pages.length + f) = some res) ∧
      res.error = none ∧
      res.attempts.length = k ∧
      res.reviews = allQualifying w1Opts.After (w1Pages.take k) :=
  C1_cursor_termination w1Pages w1Opts ⟨⟨"", [wGood]⟩, rfl, rfl⟩ rfl

def w2RlFetch : Nat → Nat → FetchResult := fun _ _ => .err "HTTP 429 Too Many Requests"

def w2Opts : FetchOptions := ⟨20, 7, none, 0, none⟩

def w2ResetFetch : Nat → Nat → FetchResult := fun i _ =>
  if i = 3 then .ok ⟨"u?offset=9", []⟩ else .err "err 429"

theorem C2_witness :
    (∃ m, w2RlFetch 5 w2Opts.Offset = .err m ∧ isRateLimited m = true ∧
      FetchAllReviews w2RlFetch (some w2Opts) (6 + 0) =
        some ⟨[], some ("maximum retry attempts exceeded: " ++ m),
          List.replicate 6 w2Opts.Offset,
          [oneSecond, 2 * oneSecond, 4 * oneSecond, 8 * oneSecond,
            16 * oneSecond]⟩ ∧
      ∀ s ∈ [oneSecond, 2 * oneSecond, 4 * oneSecond, 8 * oneSecond,
          16 * oneSecond], s ≤ maxBackoffDelay) ∧
    (∃ m, w2ResetFetch (3 + 6) 9 = .err m ∧
      FetchAllReviews w2ResetFetch (some w2Opts) ((3 + 7) + 0) =
        some ⟨[], some ("maximum retry attempts exceeded: " ++ m),
          List.replicate (3 + 1) w2Opts.Offset ++ List.replicate 6 9,
          (List.range 3).map (fun j => 2 ^ j * oneSecond) ++
            [oneSecond, 2 * oneSecond, 4 * oneSecond, 8 * oneSecond,
              16 * oneSecond]⟩) := by
  constructor
  · exact C2_backoff_bounds.1 w2RlFetch w2Opts 0
      (fun i off => ⟨"HTTP 429 Too Many Requests", rfl, by decide⟩)
  · refine C2_backoff_bounds.2 w2ResetFetch w2Opts 0 3 ⟨"u?offset=9", []⟩ 9
      (by decide) ?_ ?_ rfl rfl rfl ?_
    · intro i off hi
      refine ⟨"err 429", ?_, by decide⟩
      show (if i = 3 then FetchResult.ok ⟨"u?offset=9", []⟩ else .err "err 429") = _
      rw [if_neg (by omega)]
    · show (if (3 : Nat) = 3 then FetchResult.ok ⟨"u?offset=9", []⟩
        else .err "err 429") = _
      rw [if_pos rfl]
    · intro i off hi
      refine ⟨"err 429", ?_, by decide⟩
      show (if i = 3 then FetchResult.ok ⟨"u?offset=9", []⟩ else .err "err 429") = _
      rw [if_neg (by omega)]

def w3Pages : List ReviewsResponse :=
  [⟨"u?offset=20", [wGood, wGood]⟩, ⟨"u?offset=40", [wGood, wGood]⟩,
    ⟨"u?offset=60", [wGood]⟩]

def w3Opts : FetchOptions := ⟨20, 0, none, 3, none⟩

theorem C3_witness :
    ∃ res : FetchDone,
      (∀ f, FetchAllReviews (pagesFetch w3Pages) (some w3Opts)
        (w3Pages.length + f) = some res) ∧
      res.error = none ∧
      res.reviews = (allQualifying w3Opts.After w3Pages).take w3Opts.MaxLimit ∧
      res.reviews.length = w3Opts.MaxLimit ∧
      res.attempts.length = pagesToReach w3Opts.After w3Opts.MaxLimit w3Pages ∧
      w3Opts.MaxLimit ≤
        (allQualifying w3Opts.After (w3Pages.take res.attempts.length)).length ∧
      (allQualifying w3Opts.After (w3Pages.take (res.attempts.length - 1))).length <
        w3Opts.MaxLimit := by
  refine C3_limit_short_circuit w3Pages w3Opts (by decide) (by decide) ?_
  intro p hp
  have htake : w3Pages.take (pagesToReach w3Opts.After w3Opts.MaxLimit w3Pages - 1) =
      [⟨"u?offset=20", [wGood, wGood]⟩] := rfl
  rw [htake] at hp
  simp only [List.mem_singleton] at hp
  subst hp
  exact ⟨⟨20, rfl⟩, fun h => by simp [w3Opts] at h⟩

def w4D : GoTime := ⟨2024, 1, 1, 0, 0, 0⟩

def w4Opts : FetchOptions := ⟨20, 0, some w4D, 0, none⟩

def w4Pre : List ReviewsResponse := [⟨"u?offset=20", [wGood]⟩]

def w4Pk : ReviewsResponse := ⟨"u?offset=40", [wOld, wBad]⟩

def w4Pages : List ReviewsResponse := w4Pre ++ w4Pk :: [⟨"", [wGood]⟩]

theorem C4_witness :
    ∃ res : FetchDone,
      FetchAllReviews (pagesFetch w4Pages) (some w4Opts) ((w4Pre.length + 1) + 0) =
        some res ∧
      res.error = none ∧
      res.attempts.length = w4Pre.length + 1 ∧
      res.reviews = allQualifying w4Opts.After w4Pre := by
  refine C4_date_filter_stop w4Pages w4Pre [⟨"", [wGood]⟩] w4Pk w4Opts w4D 0
    rfl rfl ?_ (Or.inl rfl) ?_ (by decide)
  · intro p hp
    simp only [w4Pre, List.mem_singleton] at hp
    subst hp
    exact ⟨⟨20, rfl⟩, fun _ => rfl⟩
  · intro r hr
    simp only [w4Pk, List.mem_cons, List.not_mem_nil, or_false] at hr
    rcases hr with rfl | rfl
    · exact Or.inr ⟨⟨2020, 1, 1, 0, 0, 0⟩, rfl, rfl⟩
    · exact Or.inl rfl

def w10Pk : ReviewsResponse := ⟨"u?next=abc", [wGood]⟩

theorem C10_witness :
    ∃ res : FetchDone,
      FetchAllReviews (pagesFetch [w10Pk]) (some w1Opts) ((0 + 1) + 0) = some res ∧
      res.error = none ∧
      res.attempts.length = 0 + 1 ∧
      res.reviews = allQualifying w1Opts.After ([] ++ [w10Pk]) := by
  have h := C10_malformed_next_link [w10Pk] [] [] w10Pk w1Opts 0 rfl
    (by intro p hp; simp at hp) (Or.inl rfl)
    (by intro h; simp [w1Opts] at h) (by decide)
    ((parseOffsetFromURL_none_iff w10Pk.Next).mp rfl)
  simpa using h

theorem C5_amended_witness :
    countryOpts c5Evt 500 = ⟨20, 0, some zeroGoTime, 500, none⟩ ∧
    dtBefore ⟨2024, 5, 1, 10, 0, 0⟩ zeroGoTime = false ∧
    fetchLoop c5Fetch ⟨20, 0, some zeroGoTime, 500, none⟩ (1 + 1)
      (initState ⟨20, 0, some zeroGoTime, 500, none⟩) = some ⟨[], none, [0], []⟩ := by
  refine ⟨C5_amended_zero_time_filter.1 c5Evt 500 rfl, ?_, ?_⟩
  · exact C5_amended_zero_time_filter.2.1 "2024-05-01T10:00:00Z"
      ⟨2024, 5, 1, 10, 0, 0⟩ rfl (by decide)
  · exact C5_amended_zero_time_filter.2.2 c5Fetch ⟨20, 0, some zeroGoTime, 500, none⟩ 1
      ⟨"u?offset=1", [⟨"r-bad", ⟨"not-a-date", 3, "meh", "t", none⟩⟩]⟩
      rfl rfl rfl (by decide)

def w6Evt : ExtractRequest := ⟨"app1", "AppOne", ["US", "DE"], ""⟩

def w6Fetch : String → Nat → Nat → FetchResult := fun c i _ =>
  if c = "US" then
    (if i = 0 then .ok ⟨"", [wGood]⟩ else .err "exhausted")
  else .err "connection refused"

def w6EvtOK : ExtractRequest := ⟨"app1", "AppOne", ["US"], ""⟩

theorem C6_witness :
    (∃ (tot : Nat) (st1 : List RawReviewRow) (emsg : String),
      processCountries w6Fetch (fun _ _ => false) w6Evt 1 ["US"] [] =
        some (none, tot, st1, ["US"]) ∧
      Handle w6Fetch (fun _ _ => false) (.ok "tok") false w6Evt 1 [] =
        some ⟨some emsg, st1, [], ["US"] ++ ["DE"]⟩) ∧
    (∃ (tot : Nat) (st1 : List RawReviewRow),
      Handle w6Fetch (fun _ _ => false) (.ok "tok") false w6EvtOK 1 [] =
        some ⟨none, st1, [(w6EvtOK, tot)], w6EvtOK.Countries⟩) := by
  constructor
  · exact C6_saga_failure_isolation.1 w6Fetch (fun _ _ => false) "tok" false w6Evt 1 []
      ["US"] [] "DE" (by decide) rfl
      (by
        intro c hc
        simp only [List.mem_singleton] at hc
        subst hc
        exact ⟨⟨[wGood], none, [0], []⟩, rfl, rfl⟩)
      ⟨⟨[], some "connection refused", [0], []⟩, "connection refused", rfl, rfl⟩
  · exact C6_saga_failure_isolation.2 w6Fetch (fun _ _ => false) "tok" w6EvtOK 1 []
      (by decide)
      (by
        intro c hc
        simp only [w6EvtOK, List.mem_singleton] at hc
        subst hc
        exact ⟨⟨[wGood], none, [0], []⟩, rfl, rfl⟩)

def w7Fetch : Nat → Nat → FetchResult := fun i _ =>
  if i = 0 then .ok ⟨"", [wGood]⟩ else .err "exhausted"

def w7Evt : ExtractRequest := ⟨"app7", "AppSeven", ["US"], ""⟩

theorem C7_witness :
    (∀ (saveFails : String → Bool) (store : List RawReviewRow),
      handleReviewsByCountry w7Fetch saveFails w7Evt "US" 500 1 store =
        some ((⟨[wGood], none, [0], []⟩ : FetchDone).reviews.length, none,
          saveReviews saveFails w7Evt.AppID "US"
            (⟨[wGood], none, [0], []⟩ : FetchDone).reviews store)) ∧
    (∀ (saveFails₁ saveFails₂ : String → Bool) (store₁ store₂ : List RawReviewRow),
      (handleReviewsByCountry w7Fetch saveFails₁ w7Evt "US" 500 1 store₁).map
          (fun x => (x.1, x.2.1)) =
        (handleReviewsByCountry w7Fetch saveFails₂ w7Evt "US" 500 1 store₂).map
          (fun x => (x.1, x.2.1))) ∧
    (∀ (saveFails : String → Bool) (appID ctry : String) (rv : Review)
      (rs : List Review) (st : List RawReviewRow),
      saveReviews saveFails appID ctry (rv :: rs) st =
        saveReviews saveFails appID ctry rs
          (match parseReviewDate rv.Attributes.Date with
           | none => st
           | some dd =>
             if saveFails rv.ID then st
             else (SaveRawReview st (rowOfReview appID ctry rv dd)).1)) :=
  C7_save_errors_swallowed w7Fetch w7Evt "US" 500 1 ⟨[wGood], none, [0], []⟩ rfl rfl

def w8Row : RawReviewRow :=
  ⟨"w1", "app1", "US", 5, "t", "great", ⟨2024, 5, 1, 10, 0, 0⟩, none, none⟩

theorem C8_witness :
    (([w8Row].any fun r => r.id == w8Row.id) = true →
      (SaveRawReview [w8Row] w8Row).1 = [w8Row]) ∧
    (SaveRawReview [w8Row] w8Row).2 = none ∧
    (SaveRawReview (SaveRawReview [w8Row] w8Row).1 w8Row).1 =
      (SaveRawReview [w8Row] w8Row).1 ∧
    (([w8Row].countP fun r => r.id == w8Row.id) ≤ 1 →
      ((SaveRawReview [w8Row] w8Row).1.countP fun r => r.id == w8Row.id) = 1) :=
  C8_idempotent_save [w8Row] w8Row

def w9Fetch : Nat → Nat → FetchResult := fun i _ =>
  if i = 0 then .ok ⟨"u?offset=20", [wBad]⟩ else .err "exhausted"

theorem C9_witness :
    (countryOpts c5Evt 500).After =
      some ((parseDateFrom c5Evt.DateFrom).getD zeroGoTime) ∧
    handleReviewsByCountry w9Fetch (fun _ => false) c5Evt "US" 500 (0 + 1) [] =
      some (0, none, []) := by
  refine ⟨C9_zero_time_after_always_set.1 c5Evt 500, ?_⟩
  refine C9_zero_time_after_always_set.2 w9Fetch (fun _ => false) c5Evt "US" 500 0 []
    ⟨"u?offset=20", [wBad]⟩ rfl ?_ (by decide)
  intro r hr
  simp only [List.mem_singleton] at hr
  subst hr
  rfl
